import Mathlib

set_option maxRecDepth 8000

/-!
A shallow embedding of `src/double_key_table.py` (class `DoubleKeyTable`).

Key and value types are fixed to `String` (both key levels) and `Nat`
(values), matching the repository's intended instantiation (polynomial
string hashing at both levels, integer test values).

Python exceptions are modelled by the `DKErr` type: `keyError` stands for
`KeyError` (the spec's `NotFound`), `fullError` for `FullError` (the
spec's `TableFull`), and `typeError` for `TypeError` (raised by CPython
when `None` is used as an index, when an `int` is unpacked as a pair, or
when `None` is subscripted).

Stateful methods are modelled by explicit state passing: a method of the
Python class becomes a function `DKT → ... → result × DKT`, where the
returned `DKT` is the table state after the call (including states left
behind by a raised exception, so that atomicity claims are expressible).
-/

/-- Python exceptions relevant to `double_key_table.py`. -/
inductive DKErr where
  | keyError : DKErr
  | fullError : DKErr
  | typeError : DKErr
  deriving DecidableEq, Repr

deriving instance DecidableEq for Except

/-- Modelled from the spec: the class `LinearProbeTable` from
`data_structures/hash_table.py` is imported by `src/double_key_table.py`
but its source is not part of this repository's `src/`.  Following spec
section 4.2 ("InnerTable"), it is a single-level open-addressed table
with its own size ladder (`sizes`/`sizeIndex`, the ladder index only
increases) and a (key, value) store.  The store is represented as an
association list with distinct keys, which carries exactly the
observable contract of section 4.2: `get`/`set`/`delete`/`contains`,
`isFull` (occupancy equals capacity), `isEmpty`, `keys`/`values` in
array order, `TableFull` only when inserting a fresh key into a full
table, `NotFound` for absent keys. -/
structure InnerT where
  sizes : List Nat
  sizeIndex : Nat
  entries : List (String × Nat)
  deriving DecidableEq, Repr

/-- A fresh `LinearProbeTable(sizes)`: ladder index 0, no entries. -/
def InnerT.mk0 (sizes : List Nat) : InnerT := ⟨sizes, 0, []⟩

/-- Modelled from the spec: `table_size` of the inner table is the ladder
entry at the current ladder index. -/
def InnerT.capacity (s : InnerT) : Nat := s.sizes.getD s.sizeIndex 0

/-- Association-list lookup, first match wins. -/
def assocLookup (k : String) : List (String × Nat) → Option Nat
  | [] => none
  | p :: rest => if p.1 = k then some p.2 else assocLookup k rest

/-- Position of a key in an association list. -/
def assocIndex (k : String) : List (String × Nat) → Option Nat
  | [] => none
  | p :: rest => if p.1 = k then some 0 else (assocIndex k rest).map (· + 1)

/-- Overwrite the value stored at a key, keeping list order. -/
def assocSet (k : String) (v : Nat) : List (String × Nat) → List (String × Nat)
  | [] => []
  | p :: rest => if p.1 = k then (k, v) :: rest else p :: assocSet k v rest

/-- Remove a key from an association list. -/
def assocRemove (k : String) : List (String × Nat) → List (String × Nat)
  | [] => []
  | p :: rest => if p.1 = k then rest else p :: assocRemove k rest

/-- Modelled from the spec: `isFull` is true iff occupancy equals capacity
(spec section 4.2). -/
def InnerT.isFullI (s : InnerT) : Bool := s.entries.length == s.capacity

/-- Modelled from the spec: `isEmpty` is true iff occupancy is zero. -/
def InnerT.isEmptyI (s : InnerT) : Bool := s.entries.isEmpty

/-- Modelled from the spec: `keys()` of the inner table, in array order. -/
def InnerT.keysI (s : InnerT) : List String := s.entries.map Prod.fst

/-- Modelled from the spec: `values()` of the inner table, in array order. -/
def InnerT.valuesI (s : InnerT) : List Nat := s.entries.map Prod.snd

/-- Modelled from the spec: the inner table's `_linear_probe(key, is_insert)`
as called on line 111 of `double_key_table.py`.  It returns the position of
the key when present; for an absent key it fails with `NotFound` in lookup
mode and, in insert mode, returns the insertion position unless the table
is literally full, which signals `TableFull` (spec section 4.2). -/
def InnerT.probe (s : InnerT) (k : String) (isInsert : Bool) : Except DKErr Nat :=
  match assocIndex k s.entries with
  | some i => .ok i
  | none =>
    if isInsert then
      if s.isFullI then .error .fullError else .ok s.entries.length
    else .error .keyError

/-- Modelled from the spec: inner-table `get(k)`, `NotFound` if absent. -/
def InnerT.getI (s : InnerT) (k : String) : Except DKErr Nat :=
  match assocLookup k s.entries with
  | some v => .ok v
  | none => .error .keyError

/-- Modelled from the spec: the inner table's own resize trigger, invoked
after each insertion — if occupancy exceeds half the capacity, advance the
ladder index when the ladder is not exhausted (spec sections 2 and 4.2). -/
def InnerT.resizeCheck (s : InnerT) : InnerT :=
  if 2 * s.entries.length > s.capacity then
    if s.sizeIndex + 1 < s.sizes.length then { s with sizeIndex := s.sizeIndex + 1 } else s
  else s

/-- Modelled from the spec: inner-table `set(k, v)` — overwrite when the
key is present; otherwise fail with `TableFull` when the table is literally
full, else append; then run this level's resize trigger. -/
def InnerT.setI (s : InnerT) (k : String) (v : Nat) : Except DKErr InnerT :=
  if (assocLookup k s.entries).isSome then
    .ok (InnerT.resizeCheck { s with entries := assocSet k v s.entries })
  else if s.isFullI then .error .fullError
  else .ok (InnerT.resizeCheck { s with entries := s.entries ++ [(k, v)] })

/-- Modelled from the spec: inner-table `delete(k)`, `NotFound` if absent. -/
def InnerT.delI (s : InnerT) (k : String) : Except DKErr InnerT :=
  if (assocLookup k s.entries).isSome then
    .ok { s with entries := assocRemove k s.entries }
  else .error .keyError

/-- `DoubleKeyTable.TABLE_SIZES` (line 26 of `double_key_table.py`). -/
def defaultSizes : List Nat :=
  [5, 13, 29, 53, 97, 193, 389, 769, 1543, 3079, 6151, 12289, 24593,
   49157, 98317, 196613, 393241, 786433, 1572869]

/-- State of a `DoubleKeyTable` instance: the (possibly overridden) outer
size ladder `TABLE_SIZES`, `size_index`, `count`, the outer array of
optional `(key1, LinearProbeTable)` pairs, and `internal_sizes`. -/
structure DKT where
  sizes : List Nat
  sizeIndex : Nat
  count : Nat
  array : List (Option (String × InnerT))
  internalSizes : List Nat
  deriving DecidableEq, Repr

/-- `table_size` property: the length of the outer array (line 342). -/
def DKT.tableSize (t : DKT) : Nat := t.array.length

/-- The polynomial rolling hash shared by `hash1` and `hash2`
(lines 42-68): fold over the characters, with the running value reduced
mod `modv` and the running multiplier `a` (initially 31415, base 31)
reduced mod `moda`. -/
def polyHash (modv moda : Nat) (k : String) : Nat :=
  (k.data.foldl (fun p c => ((c.toNat + p.2 * p.1) % modv, p.2 * 31 % moda)) (0, 31415)).1

/-- `hash1(key)` (lines 42-54): parameterized by the current outer
`table_size`. -/
def DKT.hash1 (t : DKT) (k : String) : Nat := polyHash t.tableSize (t.tableSize - 1) k

/-- `hash2(key, sub_table)` (lines 56-68): parameterized by the inner
table's current capacity. -/
def DKT.hash2 (t : DKT) (s : InnerT) (k : String) : Nat :=
  polyHash s.capacity (s.capacity - 1) k

/-- The loop of `_linear_probe` (lines 92-120), with the remaining
iteration count (`for _ in range(self.table_size)`) as explicit fuel.
When the loop exhausts a full cycle (fuel 0): in insert mode line 117
evaluates `self[index1]` with an `int` index, and `__getitem__` raises
`TypeError` unpacking it (`key1, key2 = key`); in lookup mode the method
returns `(outer_idx, inner_idx) = (None, None)` from its initialization
on lines 86-87. -/
def DKT.probeLoop (t : DKT) (k1 k2 : String) (isInsert : Bool) :
    Nat → Nat → (Except DKErr (Option Nat × Option Nat)) × DKT
  | 0, _ =>
    if isInsert then (.error .typeError, t) else (.ok (none, none), t)
  | fuel + 1, idx =>
    match t.array.getD idx none with
    | none =>
      if isInsert then
        let inner := InnerT.mk0 t.internalSizes
        (.ok (some idx, some (t.hash2 inner k2)),
         { t with count := t.count + 1, array := t.array.set idx (some (k1, inner)) })
      else (.error .keyError, t)
    | some (k, inner) =>
      if k = k1 then
        match inner.probe k2 isInsert with
        | .error e => (.error e, t)
        | .ok j => (.ok (some idx, some j), t)
      else DKT.probeLoop t k1 k2 isInsert fuel ((idx + 1) % t.tableSize)

/-- `_linear_probe(key1, key2, is_insert)` (lines 70-120). -/
def DKT.linearProbe (t : DKT) (k1 k2 : String) (isInsert : Bool) :
    (Except DKErr (Option Nat × Option Nat)) × DKT :=
  DKT.probeLoop t k1 k2 isInsert t.tableSize (t.hash1 k1)

/-- `__getitem__` (lines 262-275).  A `None` outer index from the probe is
used as an array index (`self.array[index1]`), which raises `TypeError`. -/
def DKT.getItem (t : DKT) (k1 k2 : String) : (Except DKErr Nat) × DKT :=
  match t.linearProbe k1 k2 false with
  | (.error e, t1) => (.error e, t1)
  | (.ok (oi, _), t1) =>
    match oi with
    | none => (.error .typeError, t1)
    | some i =>
      match t1.array.getD i none with
      | none => (.error .keyError, t1)
      | some (_, inner) =>
        match inner.getI k2 with
        | .error e => (.error e, t1)
        | .ok v => (.ok v, t1)

/-- `__contains__` (lines 249-260): `get` wrapped to boolean, swallowing
only `KeyError`. -/
def DKT.containsItem (t : DKT) (k1 k2 : String) : (Except DKErr Bool) × DKT :=
  match t.getItem k1 k2 with
  | (.ok _, t1) => (.ok true, t1)
  | (.error .keyError, t1) => (.ok false, t1)
  | (.error e, t1) => (.error e, t1)

/-- The body of `__setitem__` (lines 277-286) before the rehash trigger:
probe in insert mode, then `self.array[k1_position][1][key2] = data`.
The final component reports whether line 288's condition
`self.count > self.table_size / 2` holds on the resulting state. -/
def DKT.setItemNoRe (t : DKT) (k1 k2 : String) (v : Nat) :
    (Option DKErr) × DKT × Bool :=
  match t.linearProbe k1 k2 true with
  | (.error e, t1) => (some e, t1, false)
  | (.ok (oi, _), t1) =>
    match oi with
    | none => (some .typeError, t1, false)
    | some i =>
      match t1.array.getD i none with
      | none => (some .typeError, t1, false)
      | some (k1s, inner) =>
        match inner.setI k2 v with
        | .error e => (some e, t1, false)
        | .ok inner1 =>
          let t2 := { t1 with array := t1.array.set i (some (k1s, inner1)) }
          (none, t2, decide (2 * t2.count > t2.tableSize))

/-- The `(key1, inner_key, value)` triples stored in the table, in the
iteration order of `_rehash` (lines 329-334): outer array order, then the
inner table's key order. -/
def DKT.toTriples (t : DKT) : List (String × String × Nat) :=
  t.array.foldr
    (fun slot acc =>
      match slot with
      | none => acc
      | some (k1, inner) => (inner.entries.map (fun p => (k1, p.1, p.2))) ++ acc)
    []

/-- `_rehash` (lines 313-334): advance `size_index`; if the ladder is
exhausted return (note that `size_index` has already been incremented);
otherwise allocate a fresh outer array at the new ladder size, reset
`count` to zero, and reinsert every stored triple by `__setitem__` on the
new structure (each such `__setitem__` may itself trigger a nested rehash,
whence the recursion).  `fuel` bounds the recursion depth; every rehash
strictly increases `size_index`, so any fuel of at least
`sizes.length + 1` is never exhausted (see `DKT.rehash`); the fuel-0 case
is unreachable for the fuel used by the public wrappers. -/
def DKT.rehashF : Nat → DKT → (Option DKErr) × DKT
  | 0, t => (some .typeError, t)
  | fuel + 1, t =>
    if t.sizeIndex + 1 ≥ t.sizes.length then
      (none, { t with sizeIndex := t.sizeIndex + 1 })
    else
      t.toTriples.foldl
        (fun acc tr =>
          match acc with
          | (some e, t1) => (some e, t1)
          | (none, t1) =>
            match DKT.setItemNoRe t1 tr.1 tr.2.1 tr.2.2 with
            | (some e, t2, _) => (some e, t2)
            | (none, t2, trig) => if trig then DKT.rehashF fuel t2 else (none, t2))
        (none,
         { t with sizeIndex := t.sizeIndex + 1,
                  count := 0,
                  array := List.replicate (t.sizes.getD (t.sizeIndex + 1) 0) none })

/-- `__setitem__` (lines 277-289): write, then trigger `_rehash` when the
count exceeds half the outer capacity. -/
def DKT.setItemF (fuel : Nat) (t : DKT) (k1 k2 : String) (v : Nat) :
    (Option DKErr) × DKT :=
  match DKT.setItemNoRe t k1 k2 v with
  | (some e, t1, _) => (some e, t1)
  | (none, t1, trig) => if trig then DKT.rehashF fuel t1 else (none, t1)

/-- The reinsertion loop of `_rehash` (lines 329-334) as an explicit
recursion over the remaining triples; `DKT.rehashF_eq_reinsert` below
identifies it with the fold inside `DKT.rehashF`. -/
def DKT.reinsertF (fuel : Nat) : DKT → List (String × String × Nat) → (Option DKErr) × DKT
  | t, [] => (none, t)
  | t, (k1, k2, v) :: rest =>
    match DKT.setItemF fuel t k1 k2 v with
    | (some e, t1) => (some e, t1)
    | (none, t1) => DKT.reinsertF fuel t1 rest

/-- `__setitem__` with sufficient rehash fuel. -/
def DKT.setItem (t : DKT) (k1 k2 : String) (v : Nat) : (Option DKErr) × DKT :=
  DKT.setItemF (t.sizes.length + 1) t k1 k2 v

/-- `_rehash` with sufficient fuel. -/
def DKT.rehash (t : DKT) : (Option DKErr) × DKT :=
  DKT.rehashF (t.sizes.length + 1) t

/-- `__delitem__` (lines 292-310): probe in lookup mode; evaluate
`self.array[index1][1][key2]` (an inner lookup; the `is None` comparison
on line 302 never fires for the `Nat` values modelled here); delete from
the inner table; if the inner table became empty, clear the outer slot
and decrement `count`. -/
def DKT.delItem (t : DKT) (k1 k2 : String) : (Option DKErr) × DKT :=
  match t.linearProbe k1 k2 false with
  | (.error e, t1) => (some e, t1)
  | (.ok (oi, _), t1) =>
    match oi with
    | none => (some .typeError, t1)
    | some i =>
      match t1.array.getD i none with
      | none => (some .typeError, t1)
      | some (k1s, inner) =>
        match inner.getI k2 with
        | .error e => (some e, t1)
        | .ok _ =>
          match inner.delI k2 with
          | .error e => (some e, t1)
          | .ok inner1 =>
            if inner1.entries.isEmpty then
              (none, { t1 with array := t1.array.set i none, count := t1.count - 1 })
            else
              (none, { t1 with array := t1.array.set i (some (k1s, inner1)) })

/-- `keys()` with no argument (lines 163-165): the first components of the
occupied outer slots, in array order. -/
def DKT.keysNone (t : DKT) : List String :=
  t.array.foldr (fun slot acc => match slot with | none => acc | some (k, _) => k :: acc) []

/-- The probe loop of `keys(key)` (lines 167-179).  Falling out of the
loop after a full cycle makes the Python function return `None`
implicitly, modelled as `.ok none`; finding the key returns that slot's
inner keys (`.ok (some ...)`); hitting an empty slot raises `KeyError`. -/
def DKT.keysLoop (t : DKT) (k1 : String) : Nat → Nat → Except DKErr (Option (List String))
  | 0, _ => .ok none
  | fuel + 1, idx =>
    match t.array.getD idx none with
    | none => .error .keyError
    | some (k, inner) =>
      if k = k1 then .ok (some inner.keysI)
      else DKT.keysLoop t k1 fuel ((idx + 1) % t.tableSize)

/-- `keys(key)` with a first key (lines 166-179). -/
def DKT.keysSome (t : DKT) (k1 : String) : Except DKErr (Option (List String)) :=
  DKT.keysLoop t k1 t.array.length (t.hash1 k1)

/-- `values()` with no argument (lines 224-231): all inner values in
outer array order. -/
def DKT.valuesNone (t : DKT) : List Nat :=
  t.array.foldr
    (fun slot acc => match slot with | none => acc | some (_, inner) => inner.valuesI ++ acc) []

/-- The probe loop of `values(key)` (lines 238-246).  `prefVals` is
`inner_lpt.values()` for the inner table fetched on line 235 from the
slot at the initial hash index, before any probing; on a match the loop
returns those prefetched values, whichever slot the match occurred at. -/
def DKT.valuesLoop (t : DKT) (prefVals : List Nat) (k1 : String) :
    Nat → Nat → Except DKErr (Option (List Nat))
  | 0, _ => .ok none
  | fuel + 1, idx =>
    match t.array.getD idx none with
    | none => .error .keyError
    | some (k, _) =>
      if k = k1 then .ok (some prefVals)
      else DKT.valuesLoop t prefVals k1 fuel ((idx + 1) % t.tableSize)

/-- `values(key)` with a first key (lines 232-246): line 235 evaluates
`self.array[outer_index][1]` at the initial hash index — `TypeError` when
that slot is `None`, and the wrong inner table when `key` lives at a
displaced slot. -/
def DKT.valuesSome (t : DKT) (k1 : String) : Except DKErr (Option (List Nat)) :=
  match t.array.getD (t.hash1 k1) none with
  | none => .error .typeError
  | some (_, inner0) => DKT.valuesLoop t inner0.valuesI k1 t.array.length (t.hash1 k1)

/-- `iter_values(key)` with a first key (lines 197-213), fully consumed:
same prefetch of `self.array[outer_idx][1]` on line 200; a full cycle
without a match ends the generator, yielding nothing. -/
def DKT.iterValuesSome (t : DKT) (k1 : String) : Except DKErr (List Nat) :=
  match t.array.getD (t.hash1 k1) none with
  | none => .error .typeError
  | some (_, inner0) =>
    match DKT.valuesLoop t inner0.valuesI k1 t.array.length (t.hash1 k1) with
    | .error e => .error e
    | .ok none => .ok []
    | .ok (some vs) => .ok vs

/-- `__len__` (lines 344-349): returns `self.count`. -/
def DKT.lenDKT (t : DKT) : Nat := t.count

/-- `__init__` (lines 30-40): optional outer ladder override, array sized
by the first ladder entry, `internal_sizes` defaulting to the (possibly
overridden) outer ladder. -/
def dktNew (osizes : Option (List Nat)) (oisizes : Option (List Nat)) : DKT :=
  let s := osizes.getD defaultSizes
  { sizes := s, sizeIndex := 0, count := 0,
    array := List.replicate (s.getD 0 0) none,
    internalSizes := oisizes.getD s }

/-! ## Concrete scenario states

`tAB`: the spec's concrete scenario (section 8) on a default-constructed
table — insert `("a","x")→1`, `("a","y")→2`, `("b","z")→3`.

`tAF`: outer ladder `[5,13]`; `"a"` and `"f"` both hash to outer index 2
(`ord % 5`), so `"f"` is displaced to slot 3.

`tAFdel`: `tAF` after `delete(("a","x"))`, which empties `"a"`'s inner
table and clears outer slot 2, leaving a probe hole in front of `"f"`.

`tDup`: `tAFdel` after `set(("f","y"), 99)`, which re-creates `"f"` in
the hole at slot 2 while slot 3 still holds `"f"`.

`tFull`: outer ladder forced to the single size `[5]`; five distinct
first keys fill the outer array (each rehash attempt aborts because the
ladder is exhausted). -/

def tAB : DKT :=
  ((((dktNew none none).setItem "a" "x" 1).2.setItem "a" "y" 2).2.setItem "b" "z" 3).2

def tAF : DKT :=
  (((dktNew (some [5, 13]) none).setItem "a" "x" 1).2.setItem "f" "y" 2).2

def tAFdel : DKT := (tAF.delItem "a" "x").2

def tDup : DKT := (tAFdel.setItem "f" "y" 99).2

def tFull : DKT :=
  (((((dktNew (some [5]) none).setItem "a" "p" 1).2.setItem "b" "p" 2).2.setItem
    "c" "p" 3).2.setItem "d" "p" 4).2.setItem "e" "p" 5 |>.2

/-- Claim C1, counterexample: after inserting `("a","x")→1`, `("a","y")→2`,
`("b","z")→3` into a fresh table, the table stores 3 pairs (the sum of all
inner occupancies is 3) but `length()` returns 2, not 3 — `count` is
incremented only when a new inner table is created for a fresh first key
(line 96), never for a second pair under an existing first key. -/
theorem c1_len_counterexample :
    DKT.valuesNone tAB = [1, 2, 3] ∧ DKT.lenDKT tAB = 2 ∧ DKT.lenDKT tAB ≠ 3 := by decide

/-- Claim C1, amended: `length()` returns the running count of occupied
outer slots (one per currently stored first key), maintained
incrementally; after the three inserts of the scenario it returns 2. -/
theorem c1_len_amended :
    DKT.lenDKT tAB = 2 ∧ tAB.array.countP (fun s => s.isSome) = 2 := by decide

/-- Claim C2, code bug at the failing input: on outer ladder `[5,13]`,
after `set(("a","x"),1)`, `set(("f","y"),2)` (the keys collide at outer
index 2, so `"f"` sits in slot 3) and `delete(("a","x"))`, the pair
`("f","y")` — last set to 2 and never deleted — is no longer reachable:
`get` fails with `KeyError` and `contains` answers `false`, because
`__delitem__` (line 309) leaves a `None` hole on `"f"`'s probe path and
the lookup probe (line 93) stops there.  The value 2 is still physically
stored in slot 3. -/
theorem c2_roundtrip_bug :
    (DKT.getItem tAF "f" "y").1 = .ok 2 ∧
    (DKT.delItem tAF "a" "x").1 = none ∧
    (DKT.getItem tAFdel "f" "y").1 = .error .keyError ∧
    (DKT.containsItem tAFdel "f" "y").1 = .ok false ∧
    tAFdel.array.getD 3 none = some ("f", ⟨[5, 13], 0, [("y", 2)]⟩) := by decide

/-- Claim C3, code bug at the failing input: with `"a"` at its hash slot 2
and `"f"` displaced to slot 3, `keys("f")` correctly probes to slot 3 and
returns `["y"]`, but `values("f")` returns `[1]` — the values of the inner
table prefetched on line 235 from slot 2 (owned by `"a"`) — instead of
slot 3's values `[2]`; the streamed `iter_values("f")` (prefetch on line
200) returns the same wrong list. -/
theorem c3_values_bug :
    DKT.keysSome tAF "f" = .ok (some ["y"]) ∧
    (tAF.array.getD 3 none).map (fun p => p.2.valuesI) = some [2] ∧
    DKT.valuesSome tAF "f" = .ok (some [1]) ∧
    DKT.iterValuesSome tAF "f" = .ok [1] := by decide

/-- Claim C4, code bug at the failing input: on a completely full outer
table (ladder `[5]`, five distinct first keys), looking up an absent first
key makes the probe complete a full cycle and return `(None, None)`
(lines 86-87, 120), after which `__getitem__` evaluates
`self.array[None]` (line 273) — a `TypeError`, not the `KeyError` the
claim requires. -/
theorem c4_full_cycle_bug :
    (DKT.getItem tFull "z" "z").1 = .error .typeError ∧
    (DKT.getItem tFull "z" "z").1 ≠ .error .keyError := by decide

/-- Claim C7, code bug at the failing input: inserting a sixth distinct
first key into the full five-slot table reaches line 117, where
`self[index1]` calls `__getitem__` with an `int`, and `key1, key2 = key`
raises `TypeError` — `FullError` is never raised.  The table state is
left unchanged. -/
theorem c7_tablefull_bug :
    (tFull.setItem "g" "q" 7).1 = some .typeError ∧
    (tFull.setItem "g" "q" 7).1 ≠ some .fullError ∧
    (tFull.setItem "g" "q" 7).2 = tFull := by decide

/-- Claim C9, code bug at the failing input: in `tAFdel` the pair
`("f","y")` is present (slot 3) and `length() == 1`, yet
`set(("f","y"), 99)` changes `length()` to 2 and creates a second outer
slot for `"f"`: the insert probe stops at the deletion hole in slot 2
(line 93) and creates a fresh inner table there, so slots 2 and 3 both
hold first key `"f"` afterwards. -/
theorem c9_duplicate_slot_bug :
    tAFdel.array.getD 3 none = some ("f", ⟨[5, 13], 0, [("y", 2)]⟩) ∧
    DKT.lenDKT tAFdel = 1 ∧
    (tAFdel.setItem "f" "y" 99).1 = none ∧
    DKT.lenDKT tDup = 2 ∧
    tDup.array.getD 2 none = some ("f", ⟨[5, 13], 0, [("y", 99)]⟩) ∧
    tDup.array.getD 3 none = some ("f", ⟨[5, 13], 0, [("y", 2)]⟩) := by decide

/-- Claim C10, counterexample: in `tDup` — reached from a fresh table by
completed public operations only — `count` equals the number of occupied
outer slots (2), but the number of distinct first keys stored is 1
(both slots hold `"f"`), so `count` is not "the number of distinct first
keys currently stored". -/
theorem c10_distinct_counterexample :
    tDup.count = 2 ∧ tDup.array.countP (fun s => s.isSome) = 2 ∧
    tDup.keysNone.dedup.length = 1 := by decide

/-! ## Basic list lemmas -/

theorem getD_set_self {α : Type} (l : List α) (i : Nat) (a d : α) (hi : i < l.length) :
    (l.set i a).getD i d = a := by
  simp [List.getD_eq_getElem?_getD, List.getElem?_set, hi]

theorem getD_set_ne {α : Type} (l : List α) {i j : Nat} (a d : α) (h : i ≠ j) :
    (l.set i a).getD j d = l.getD j d := by
  simp [List.getD_eq_getElem?_getD, List.getElem?_set_ne h]

theorem getD_lt_of_isSome {α : Type} {l : List α} {i : Nat} {d : α}
    (h : l.getD i d ≠ d) : i < l.length := by
  by_contra hc
  rw [List.getD_eq_getElem?_getD, List.getElem?_eq_none (Nat.le_of_not_lt hc)] at h
  exact h rfl

theorem countP_set_some_of_none {α : Type} (l : List (Option α)) (i : Nat) (x : α)
    (h : l.getD i none = none) :
    (l.set i (some x)).countP (fun s => s.isSome) =
      l.countP (fun s => s.isSome) + 1 ∨ i ≥ l.length := by
  induction l generalizing i with
  | nil => right; exact Nat.zero_le _
  | cons a rest ih =>
    cases i with
    | zero =>
      left
      simp only [List.getD_cons_zero] at h
      subst h
      simp [List.countP_cons]
    | succ n =>
      simp only [List.getD_cons_succ] at h
      rcases ih n h with h1 | h1
      · left; simp [List.countP_cons, h1]; omega
      · right; simpa [Nat.succ_le_succ_iff] using h1

theorem countP_set_some_of_some {α : Type} (l : List (Option α)) (i : Nat) (x y : α)
    (h : l.getD i none = some y) :
    (l.set i (some x)).countP (fun s => s.isSome) = l.countP (fun s => s.isSome) := by
  induction l generalizing i with
  | nil => simp [List.getD] at h
  | cons a rest ih =>
    cases i with
    | zero =>
      simp only [List.getD_cons_zero] at h
      subst h
      simp [List.countP_cons]
    | succ n =>
      simp only [List.getD_cons_succ] at h
      simp [List.countP_cons, ih n h]

theorem countP_set_none_of_some {α : Type} (l : List (Option α)) (i : Nat) (y : α)
    (h : l.getD i none = some y) :
    (l.set i none).countP (fun s => s.isSome) + 1 = l.countP (fun s => s.isSome) := by
  induction l generalizing i with
  | nil => simp [List.getD] at h
  | cons a rest ih =>
    cases i with
    | zero =>
      simp only [List.getD_cons_zero] at h
      subst h
      simp [List.countP_cons]
    | succ n =>
      simp only [List.getD_cons_succ] at h
      have := ih n h
      simp only [List.set_cons_succ, List.countP_cons]
      omega

/-! ## Probe loop analysis -/

theorem polyHash_lt (modv moda : Nat) (k : String) (h : 0 < modv) :
    polyHash modv moda k < modv := by
  unfold polyHash
  have : ∀ (l : List Char) (init : Nat × Nat), init.1 < modv →
      (l.foldl (fun p c => ((c.toNat + p.2 * p.1) % modv, p.2 * 31 % moda)) init).1 < modv := by
    intro l
    induction l with
    | nil => intro init hi; exact hi
    | cons c rest ih =>
      intro init hi
      exact ih _ (Nat.mod_lt _ h)
  exact this k.data (0, 31415) h

theorem hash1_lt (t : DKT) (k : String) (h : 0 < t.tableSize) : t.hash1 k < t.tableSize :=
  polyHash_lt _ _ _ h

/-- A lookup-mode probe never mutates the table. -/
theorem probeLoop_lookup_snd (t : DKT) (k1 k2 : String) :
    ∀ fuel idx, (DKT.probeLoop t k1 k2 false fuel idx).2 = t := by
  intro fuel
  induction fuel with
  | zero => intro idx; rfl
  | succ n ih =>
    intro idx
    simp only [DKT.probeLoop]
    cases hslot : t.array.getD idx none with
    | none => rfl
    | some p =>
      obtain ⟨k, inner⟩ := p
      by_cases hk : k = k1
      · simp only [hk, if_pos rfl]
        cases hp : inner.probe k2 false <;> rfl
      · simp only [if_neg hk]
        exact ih _

/-- An insert-mode probe that raises leaves the table unchanged. -/
theorem probeLoop_insert_error (t : DKT) (k1 k2 : String) :
    ∀ fuel idx e t1,
      DKT.probeLoop t k1 k2 true fuel idx = (.error e, t1) → t1 = t := by
  intro fuel
  induction fuel with
  | zero =>
    intro idx e t1 h
    simp only [DKT.probeLoop, if_pos] at h
    exact (Prod.mk.injEq _ _ _ _ ▸ h).2.symm ▸ rfl
  | succ n ih =>
    intro idx e t1 h
    simp only [DKT.probeLoop] at h
    cases hslot : t.array.getD idx none with
    | none =>
      rw [hslot] at h
      simp at h
    | some p =>
      obtain ⟨k, inner⟩ := p
      rw [hslot] at h
      by_cases hk : k = k1
      · simp only [hk, if_pos rfl] at h
        cases hp : inner.probe k2 true with
        | error e2 => rw [hp] at h; exact (Prod.mk.injEq _ _ _ _ ▸ h).2.symm
        | ok j => rw [hp] at h; simp at h
      · simp only [if_neg hk] at h
        exact ih _ _ _ h

/-- Case analysis of a successful insert-mode probe: either the first key
was found at a matching occupied slot (no mutation), or a fresh inner
table was created at the first empty slot (count incremented, slot
filled). -/
theorem probeLoop_insert_ok (t : DKT) (k1 k2 : String) :
    ∀ fuel idx, idx < t.array.length →
    ∀ oi oj t1, DKT.probeLoop t k1 k2 true fuel idx = (.ok (oi, oj), t1) →
    ∃ i, oi = some i ∧ i < t.array.length ∧
      ((∃ inner j, t.array.getD i none = some (k1, inner) ∧
          inner.probe k2 true = .ok j ∧ oj = some j ∧ t1 = t) ∨
       (t.array.getD i none = none ∧
          oj = some (t.hash2 (InnerT.mk0 t.internalSizes) k2) ∧
          t1 = { t with count := t.count + 1,
                        array := t.array.set i (some (k1, InnerT.mk0 t.internalSizes)) })) := by
  intro fuel
  induction fuel with
  | zero =>
    intro idx _ oi oj t1 h
    simp [DKT.probeLoop] at h
  | succ n ih =>
    intro idx hidx oi oj t1 h
    simp only [DKT.probeLoop] at h
    cases hslot : t.array.getD idx none with
    | none =>
      rw [hslot] at h
      simp only [if_pos] at h
      obtain ⟨h1, h2⟩ := Prod.mk.injEq _ _ _ _ ▸ h
      obtain ⟨hoi, hoj⟩ := Prod.mk.injEq _ _ _ _ ▸ (Except.ok.injEq _ _ ▸ h1)
      exact ⟨idx, hoi.symm, hidx, Or.inr ⟨hslot, hoj.symm, h2.symm⟩⟩
    | some p =>
      obtain ⟨k, inner⟩ := p
      rw [hslot] at h
      by_cases hk : k = k1
      · simp only [hk, if_pos rfl] at h
        cases hp : inner.probe k2 true with
        | error e2 => rw [hp] at h; simp at h
        | ok j =>
          rw [hp] at h
          obtain ⟨h1, h2⟩ := Prod.mk.injEq _ _ _ _ ▸ h
          obtain ⟨hoi, hoj⟩ := Prod.mk.injEq _ _ _ _ ▸ (Except.ok.injEq _ _ ▸ h1)
          exact ⟨idx, hoi.symm, hidx,
            Or.inl ⟨inner, j, hk ▸ hslot, hp, hoj.symm, h2.symm⟩⟩
      · simp only [if_neg hk] at h
        have hnext : (idx + 1) % t.tableSize < t.array.length :=
          Nat.mod_lt _ (Nat.lt_of_le_of_lt (Nat.zero_le idx) hidx)
        exact ih _ hnext _ _ _ h

/-- Case analysis of a successful lookup-mode probe. -/
theorem probeLoop_lookup_ok (t : DKT) (k1 k2 : String) :
    ∀ fuel idx oi oj t1,
      DKT.probeLoop t k1 k2 false fuel idx = (.ok (oi, oj), t1) →
      t1 = t ∧ ((oi = none ∧ oj = none) ∨
        (∃ i j inner, oi = some i ∧ oj = some j ∧
           t.array.getD i none = some (k1, inner) ∧ inner.probe k2 false = .ok j)) := by
  intro fuel
  induction fuel with
  | zero =>
    intro idx oi oj t1 h
    simp only [DKT.probeLoop, if_neg Bool.false_ne_true] at h
    obtain ⟨h1, h2⟩ := Prod.mk.injEq _ _ _ _ ▸ h
    obtain ⟨hoi, hoj⟩ := Prod.mk.injEq _ _ _ _ ▸ (Except.ok.injEq _ _ ▸ h1)
    exact ⟨h2.symm, Or.inl ⟨hoi.symm, hoj.symm⟩⟩
  | succ n ih =>
    intro idx oi oj t1 h
    simp only [DKT.probeLoop] at h
    cases hslot : t.array.getD idx none with
    | none => rw [hslot] at h; simp at h
    | some p =>
      obtain ⟨k, inner⟩ := p
      rw [hslot] at h
      by_cases hk : k = k1
      · simp only [hk, if_pos rfl] at h
        cases hp : inner.probe k2 false with
        | error e2 => rw [hp] at h; simp at h
        | ok j =>
          rw [hp] at h
          obtain ⟨h1, h2⟩ := Prod.mk.injEq _ _ _ _ ▸ h
          obtain ⟨hoi, hoj⟩ := Prod.mk.injEq _ _ _ _ ▸ (Except.ok.injEq _ _ ▸ h1)
          exact ⟨h2.symm,
            Or.inr ⟨idx, j, inner, hoi.symm, hoj.symm, hk ▸ hslot, hp⟩⟩
      · simp only [if_neg hk] at h
        exact ih _ _ _ _ h

/-! ## The count invariant -/

/-- Number of occupied outer slots. -/
def DKT.occupancy (t : DKT) : Nat := t.array.countP (fun s => s.isSome)

/-- `count` equals the number of occupied outer slots. -/
def DKT.countInv (t : DKT) : Prop := t.count = t.occupancy

instance (t : DKT) : Decidable t.countInv := by unfold DKT.countInv; infer_instance

/-- Well-formedness carried through every operation: the count invariant,
a positive size ladder, and a non-empty outer array. -/
def dktOK (t : DKT) : Prop :=
  t.countInv ∧ (∀ s ∈ t.sizes, 0 < s) ∧ 0 < t.tableSize

instance (t : DKT) : Decidable (dktOK t) := by unfold dktOK; infer_instance

theorem setItemNoRe_pres (t : DKT) (k1 k2 : String) (v : Nat)
    (h : dktOK t) :
    ∀ e t1 trig, DKT.setItemNoRe t k1 k2 v = (e, t1, trig) →
      dktOK t1 ∧ t1.sizes = t.sizes ∧ t1.sizeIndex = t.sizeIndex ∧
        t1.internalSizes = t.internalSizes ∧ t1.tableSize = t.tableSize := by
  intro e t1 trig hset
  obtain ⟨hc, hp, hn⟩ := h
  unfold DKT.setItemNoRe at hset
  unfold DKT.linearProbe at hset
  cases hpr : DKT.probeLoop t k1 k2 true t.tableSize (t.hash1 k1) with
  | mk pres tp =>
    rw [hpr] at hset
    cases pres with
    | error pe =>
      have htp := probeLoop_insert_error t k1 k2 _ _ _ _ hpr
      subst htp
      simp only [Prod.mk.injEq] at hset
      obtain ⟨-, ht1, -⟩ := hset
      subst ht1
      exact ⟨⟨hc, hp, hn⟩, rfl, rfl, rfl, rfl⟩
    | ok pr =>
      obtain ⟨oi, oj⟩ := pr
      obtain ⟨i, hoi, hilt, hcase⟩ :=
        probeLoop_insert_ok t k1 k2 _ _ (hash1_lt t k1 hn) _ _ _ hpr
      subst hoi
      rcases hcase with ⟨inner, j, hslot, hprb, hoj, htp⟩ | ⟨hslot, hoj, htp⟩
      · -- found branch: tp = t, slot i occupied by (k1, inner)
        rw [htp] at hset
        simp only [hslot] at hset
        cases hsi : inner.setI k2 v with
        | error e2 =>
          rw [hsi] at hset
          simp only [Prod.mk.injEq] at hset
          obtain ⟨-, ht1, -⟩ := hset
          subst ht1
          exact ⟨⟨hc, hp, hn⟩, rfl, rfl, rfl, rfl⟩
        | ok inner1 =>
          rw [hsi] at hset
          simp only [Prod.mk.injEq] at hset
          obtain ⟨-, ht1, -⟩ := hset
          subst ht1
          refine ⟨⟨?_, hp, ?_⟩, rfl, rfl, rfl, ?_⟩
          · show t.count = _
            unfold DKT.occupancy
            rw [countP_set_some_of_some _ _ _ _ hslot]
            exact hc
          · show 0 < (t.array.set i _).length
            rw [List.length_set]; exact hn
          · show (t.array.set i _).length = t.array.length
            exact List.length_set t.array i _
      · -- create branch: fresh inner table at empty slot i, count incremented
        subst htp
        simp only [getD_set_self t.array i _ none hilt] at hset
        cases hsi : (InnerT.mk0 t.internalSizes).setI k2 v with
        | error e2 =>
          rw [hsi] at hset
          simp only [Prod.mk.injEq] at hset
          obtain ⟨-, ht1, -⟩ := hset
          subst ht1
          refine ⟨⟨?_, hp, ?_⟩, rfl, rfl, rfl, ?_⟩
          · show t.count + 1 = _
            unfold DKT.occupancy
            rcases countP_set_some_of_none t.array i
                (k1, InnerT.mk0 t.internalSizes) hslot with hcp | hge
            · rw [hcp]; exact congrArg (· + 1) hc
            · omega
          · show 0 < (t.array.set i _).length
            rw [List.length_set]; exact hn
          · exact List.length_set t.array i _
        | ok inner1 =>
          rw [hsi] at hset
          simp only [Prod.mk.injEq] at hset
          obtain ⟨-, ht1, -⟩ := hset
          subst ht1
          refine ⟨⟨?_, hp, ?_⟩, rfl, rfl, rfl, ?_⟩
          · show t.count + 1 = _
            unfold DKT.occupancy
            rw [List.set_set]
            rcases countP_set_some_of_none t.array i
                (k1, inner1) hslot with hcp | hge
            · rw [hcp]; exact congrArg (· + 1) hc
            · omega
          · show 0 < ((t.array.set i _).set i _).length
            rw [List.length_set, List.length_set]; exact hn
          · show ((t.array.set i _).set i _).length = t.array.length
            rw [List.length_set, List.length_set]

/-- A fold step of `DKT.rehashF` at fuel budget `fuel`. -/
def rehashStep (fuel : Nat) (acc : (Option DKErr) × DKT)
    (tr : String × String × Nat) : (Option DKErr) × DKT :=
  match acc with
  | (some e, t1) => (some e, t1)
  | (none, t1) =>
    match DKT.setItemNoRe t1 tr.1 tr.2.1 tr.2.2 with
    | (some e, t2, _) => (some e, t2)
    | (none, t2, trig) => if trig then DKT.rehashF fuel t2 else (none, t2)

theorem rehashStep_eq_setItemF (fuel : Nat) (t1 : DKT) (tr : String × String × Nat) :
    rehashStep fuel (none, t1) tr = DKT.setItemF fuel t1 tr.1 tr.2.1 tr.2.2 := by
  cases h : DKT.setItemNoRe t1 tr.1 tr.2.1 tr.2.2 with
  | mk e rest =>
    obtain ⟨t2, trig⟩ := rest
    cases e <;> simp [rehashStep, DKT.setItemF, h]

theorem foldl_rehashStep_error (fuel : Nat) (e : DKErr) (t1 : DKT) :
    ∀ l : List (String × String × Nat),
      l.foldl (rehashStep fuel) (some e, t1) = (some e, t1) := by
  intro l
  induction l with
  | nil => rfl
  | cons tr rest ih => simpa [List.foldl_cons, rehashStep] using ih

theorem foldl_rehashStep_eq_reinsert (fuel : Nat) :
    ∀ (l : List (String × String × Nat)) (t1 : DKT),
      l.foldl (rehashStep fuel) (none, t1) = DKT.reinsertF fuel t1 l := by
  intro l
  induction l with
  | nil => intro t1; rfl
  | cons tr rest ih =>
    intro t1
    obtain ⟨k1, k2, v⟩ := tr
    rw [List.foldl_cons, rehashStep_eq_setItemF]
    show rest.foldl (rehashStep fuel) (DKT.setItemF fuel t1 k1 k2 v) = _
    unfold DKT.reinsertF
    cases hs : DKT.setItemF fuel t1 k1 k2 v with
    | mk e t2 =>
      cases e with
      | none => exact ih t2
      | some e2 => exact foldl_rehashStep_error fuel e2 t2 rest

/-- `DKT.rehashF` at positive fuel, phrased via `DKT.reinsertF`. -/
theorem rehashF_succ_eq (fuel : Nat) (t : DKT) :
    DKT.rehashF (fuel + 1) t =
      if t.sizeIndex + 1 ≥ t.sizes.length then
        (none, { t with sizeIndex := t.sizeIndex + 1 })
      else
        DKT.reinsertF fuel
          { t with sizeIndex := t.sizeIndex + 1,
                   count := 0,
                   array := List.replicate (t.sizes.getD (t.sizeIndex + 1) 0) none }
          t.toTriples := by
  show (if t.sizeIndex + 1 ≥ t.sizes.length then _
        else t.toTriples.foldl (rehashStep fuel) _) = _
  by_cases hex : t.sizeIndex + 1 ≥ t.sizes.length
  · rw [if_pos hex, if_pos hex]
  · rw [if_neg hex, if_neg hex, foldl_rehashStep_eq_reinsert]

theorem countP_replicate_none {α : Type} (m : Nat) :
    (List.replicate m (none : Option α)).countP (fun s => s.isSome) = 0 := by
  induction m with
  | zero => rfl
  | succ n ih => simpa [List.replicate_succ, List.countP_cons] using ih

/-- Every outcome of `rehashF` — error or success — satisfies the count
invariant when the input does. -/
theorem rehashF_pres : ∀ fuel t e t1,
    dktOK t → DKT.rehashF fuel t = (e, t1) → dktOK t1 := by
  intro fuel
  induction fuel with
  | zero =>
    intro t e t1 h hr
    simp only [DKT.rehashF, Prod.mk.injEq] at hr
    exact hr.2 ▸ h
  | succ n ih =>
    intro t e t1 h hr
    rw [rehashF_succ_eq] at hr
    by_cases hex : t.sizeIndex + 1 ≥ t.sizes.length
    · rw [if_pos hex] at hr
      simp only [Prod.mk.injEq] at hr
      obtain ⟨-, ht1⟩ := hr
      subst ht1
      exact ⟨h.1, h.2.1, h.2.2⟩
    · rw [if_neg hex] at hr
      set t0 : DKT :=
        { t with sizeIndex := t.sizeIndex + 1,
                 count := 0,
                 array := List.replicate (t.sizes.getD (t.sizeIndex + 1) 0) none } with ht0
      have h0 : dktOK t0 := by
        refine ⟨?_, h.2.1, ?_⟩
        · show (0 : Nat) = _
          unfold DKT.occupancy
          rw [ht0]
          exact (countP_replicate_none _).symm
        · show 0 < (List.replicate (t.sizes.getD (t.sizeIndex + 1) 0) _).length
          rw [List.length_replicate]
          have hlt : t.sizeIndex + 1 < t.sizes.length := Nat.lt_of_not_le hex
          have : t.sizes.getD (t.sizeIndex + 1) 0 ∈ t.sizes := by
            rw [List.getD_eq_getElem?_getD, List.getElem?_eq_getElem hlt]
            exact List.getElem_mem _
          exact h.2.1 _ this
      -- reinsert preserves dktOK, by induction over the triples
      have hre : ∀ (l : List (String × String × Nat)) (s : DKT) e2 s1,
          dktOK s → DKT.reinsertF n s l = (e2, s1) → dktOK s1 := by
        intro l
        induction l with
        | nil =>
          intro s e2 s1 hs hr2
          simp only [DKT.reinsertF, Prod.mk.injEq] at hr2
          exact hr2.2 ▸ hs
        | cons tr rest ihl =>
          intro s e2 s1 hs hr2
          obtain ⟨k1, k2, v⟩ := tr
          unfold DKT.reinsertF at hr2
          cases hstep : DKT.setItemF n s k1 k2 v with
          | mk es ts =>
            rw [hstep] at hr2
            have hts : dktOK ts := by
              unfold DKT.setItemF at hstep
              cases hnr : DKT.setItemNoRe s k1 k2 v with
              | mk e3 rest3 =>
                obtain ⟨t3, trig⟩ := rest3
                rw [hnr] at hstep
                have h3 := (setItemNoRe_pres s k1 k2 v hs _ _ _ hnr).1
                cases e3 with
                | some e4 =>
                  simp only [Prod.mk.injEq] at hstep
                  exact hstep.2 ▸ h3
                | none =>
                  simp only at hstep
                  by_cases htr : trig = true
                  · rw [htr, if_pos rfl] at hstep
                    exact ih t3 es ts h3 hstep
                  · rw [Bool.not_eq_true] at htr
                    rw [htr] at hstep
                    simp only [Bool.false_eq_true, if_false, Prod.mk.injEq] at hstep
                    exact hstep.2 ▸ h3
            cases es with
            | some e5 =>
              simp only [Prod.mk.injEq] at hr2
              exact hr2.2 ▸ hts
            | none => exact ihl ts e2 s1 hts hr2
      exact hre t.toTriples t0 e t1 h0 hr

/-- `setItemF` preserves `dktOK` for any outcome. -/
theorem setItemF_pres (fuel : Nat) (t : DKT) (k1 k2 : String) (v : Nat) (e : Option DKErr)
    (t1 : DKT) (h : dktOK t) (hs : DKT.setItemF fuel t k1 k2 v = (e, t1)) : dktOK t1 := by
  unfold DKT.setItemF at hs
  cases hnr : DKT.setItemNoRe t k1 k2 v with
  | mk e3 rest3 =>
    obtain ⟨t3, trig⟩ := rest3
    rw [hnr] at hs
    have h3 := (setItemNoRe_pres t k1 k2 v h _ _ _ hnr).1
    cases e3 with
    | some e4 =>
      simp only [Prod.mk.injEq] at hs
      exact hs.2 ▸ h3
    | none =>
      simp only at hs
      by_cases htr : trig = true
      · rw [htr, if_pos rfl] at hs
        exact rehashF_pres fuel t3 e t1 h3 hs
      · rw [Bool.not_eq_true] at htr
        rw [htr] at hs
        simp only [Bool.false_eq_true, if_false, Prod.mk.injEq] at hs
        exact hs.2 ▸ h3

theorem assocIndex_isSome_iff (k : String) :
    ∀ l : List (String × Nat), (assocIndex k l).isSome = (assocLookup k l).isSome := by
  intro l
  induction l with
  | nil => rfl
  | cons p rest ih =>
    by_cases hp : p.1 = k
    · simp [assocIndex, assocLookup, hp]
    · simp only [assocIndex, assocLookup, if_neg hp]
      rw [← ih]
      cases assocIndex k rest <;> rfl

theorem innerProbe_lookup_ok {s : InnerT} {k : String} {j : Nat}
    (h : s.probe k false = .ok j) : ∃ v, assocLookup k s.entries = some v := by
  unfold InnerT.probe at h
  cases hi : assocIndex k s.entries with
  | none => rw [hi] at h; simp at h
  | some i =>
    have : (assocLookup k s.entries).isSome := by
      rw [← assocIndex_isSome_iff, hi]; rfl
    exact Option.isSome_iff_exists.mp this

/-- Full case analysis of `__delitem__`: every failing outcome leaves the
table unchanged; a successful delete removes the second key from the inner
table at the slot holding the first key, clearing the slot and
decrementing `count` exactly when the inner table became empty. -/
theorem delItem_cases (t : DKT) (k1 k2 : String) :
    ∀ r t1, t.delItem k1 k2 = (r, t1) →
      ((∃ e, r = some e) ∧ t1 = t) ∨
      (r = none ∧ ∃ i inner v,
         i < t.array.length ∧
         t.array.getD i none = some (k1, inner) ∧
         assocLookup k2 inner.entries = some v ∧
         ((assocRemove k2 inner.entries = [] ∧
             t1 = { t with array := t.array.set i none, count := t.count - 1 }) ∨
          (assocRemove k2 inner.entries ≠ [] ∧
             t1 = { t with array :=
                      (t.array.set i (some (k1, ⟨inner.sizes, inner.sizeIndex,
                        assocRemove k2 inner.entries⟩))) }))) := by
  intro r t1 hdel
  unfold DKT.delItem DKT.linearProbe at hdel
  cases hpr : DKT.probeLoop t k1 k2 false t.tableSize (t.hash1 k1) with
  | mk pres tp =>
    have htp : tp = t := by
      have := probeLoop_lookup_snd t k1 k2 t.tableSize (t.hash1 k1)
      rw [hpr] at this; exact this
    rw [htp] at hpr
    rw [hpr] at hdel
    cases pres with
    | error pe =>
      simp only [Prod.mk.injEq] at hdel
      exact Or.inl ⟨⟨pe, hdel.1.symm⟩, hdel.2.symm⟩
    | ok pr =>
      obtain ⟨oi, oj⟩ := pr
      obtain ⟨-, hcase⟩ := probeLoop_lookup_ok t k1 k2 _ _ _ _ _ hpr
      rcases hcase with ⟨hoi, hoj⟩ | ⟨i, j, inner, hoi, hoj, hslot, hprb⟩
      · subst hoi
        simp only [Prod.mk.injEq] at hdel
        exact Or.inl ⟨⟨.typeError, hdel.1.symm⟩, hdel.2.symm⟩
      · subst hoi
        simp only [hslot] at hdel
        obtain ⟨v, hlk⟩ := innerProbe_lookup_ok hprb
        have hget : inner.getI k2 = .ok v := by
          unfold InnerT.getI; rw [hlk]
        rw [hget] at hdel
        have hdl : inner.delI k2 =
            .ok ⟨inner.sizes, inner.sizeIndex, assocRemove k2 inner.entries⟩ := by
          unfold InnerT.delI
          rw [hlk]
          rfl
        rw [hdl] at hdel
        have hilt : i < t.array.length :=
          getD_lt_of_isSome (by rw [hslot]; exact fun hcon => Option.noConfusion hcon)
        by_cases hemp : assocRemove k2 inner.entries = []
        · simp only [hemp, List.isEmpty_nil, if_pos] at hdel
          simp only [Prod.mk.injEq] at hdel
          refine Or.inr ⟨hdel.1.symm, i, inner, v, hilt, hslot, hlk,
            Or.inl ⟨hemp, ?_⟩⟩
          exact hdel.2.symm
        · have : (assocRemove k2 inner.entries).isEmpty = false := by
            cases hx : assocRemove k2 inner.entries with
            | nil => exact absurd hx hemp
            | cons a rest => rfl
          simp only [this, Bool.false_eq_true, if_false, Prod.mk.injEq] at hdel
          exact Or.inr ⟨hdel.1.symm, i, inner, v, hilt, hslot, hlk,
            Or.inr ⟨hemp, hdel.2.symm⟩⟩

/-- `__delitem__` preserves `dktOK` for any outcome. -/
theorem delItem_pres (t : DKT) (k1 k2 : String) (r : Option DKErr) (t1 : DKT)
    (h : dktOK t) (hdel : t.delItem k1 k2 = (r, t1)) : dktOK t1 := by
  rcases delItem_cases t k1 k2 r t1 hdel with ⟨-, ht1⟩ | ⟨-, i, inner, v, hilt, hslot, -, hcase⟩
  · exact ht1 ▸ h
  · obtain ⟨hc, hp, hn⟩ := h
    rcases hcase with ⟨-, ht1⟩ | ⟨-, ht1⟩
    · subst ht1
      refine ⟨?_, hp, ?_⟩
      · show t.count - 1 = List.countP (fun s => s.isSome) (t.array.set i none)
        have := countP_set_none_of_some t.array i _ hslot
        unfold DKT.countInv DKT.occupancy at hc
        omega
      · show 0 < (t.array.set i _).length
        rw [List.length_set]; exact hn
    · subst ht1
      refine ⟨?_, hp, ?_⟩
      · show t.count = List.countP (fun s => s.isSome)
            (t.array.set i (some (k1, ⟨inner.sizes, inner.sizeIndex,
              assocRemove k2 inner.entries⟩)))
        rw [countP_set_some_of_some _ _ _ _ hslot]
        exact hc
      · show 0 < (t.array.set i _).length
        rw [List.length_set]; exact hn

/-- Claim C10, amended: after every completed public operation (`set`,
`delete`, `rehash`) on a well-formed table, `count` equals the number of
occupied (non-empty) outer slots, and `len()` reports exactly that
number.  (The original claim's identification of occupied slots with
distinct first keys fails, see the counterexample.) -/
theorem c10_count_eq_occupied (t : DKT) (h : dktOK t) :
    (∀ k1 k2 v r t1, t.setItem k1 k2 v = (r, t1) → r = none →
        t1.count = t1.occupancy ∧ t1.lenDKT = t1.occupancy) ∧
    (∀ k1 k2 r t1, t.delItem k1 k2 = (r, t1) → r = none →
        t1.count = t1.occupancy ∧ t1.lenDKT = t1.occupancy) ∧
    (∀ r t1, t.rehash = (r, t1) → r = none →
        t1.count = t1.occupancy ∧ t1.lenDKT = t1.occupancy) := by
  refine ⟨?_, ?_, ?_⟩
  · intro k1 k2 v r t1 hs _
    have := setItemF_pres _ t k1 k2 v r t1 h hs
    exact ⟨this.1, this.1⟩
  · intro k1 k2 r t1 hd _
    have := delItem_pres t k1 k2 r t1 h hd
    exact ⟨this.1, this.1⟩
  · intro r t1 hr _
    have := rehashF_pres _ t r t1 h hr
    exact ⟨this.1, this.1⟩

/-- Witness for `c10_count_eq_occupied` at the concrete table `tAB`. -/
theorem c10_count_eq_occupied_witness :
    dktOK tAB ∧
      (∀ k1 k2 v r t1, tAB.setItem k1 k2 v = (r, t1) → r = none →
        t1.count = t1.occupancy ∧ t1.lenDKT = t1.occupancy) :=
  ⟨by decide, (c10_count_eq_occupied tAB (by decide)).1⟩

/-- Membership in `keys()` with no argument is equivalent to occupying
some outer slot. -/
theorem keysNone_mem (t : DKT) (k : String) :
    k ∈ t.keysNone ↔ ∃ i inner, t.array.getD i none = some (k, inner) := by
  show k ∈ t.array.foldr _ [] ↔ _
  induction t.array with
  | nil =>
    simp only [List.foldr_nil, List.not_mem_nil, false_iff]
    rintro ⟨i, inner, hi⟩
    rw [List.getD_eq_getElem?_getD, List.getElem?_nil] at hi
    exact Option.noConfusion hi
  | cons s rest ih =>
    cases s with
    | none =>
      show k ∈ rest.foldr _ [] ↔ _
      rw [ih]
      constructor
      · rintro ⟨i, inner, hi⟩
        exact ⟨i + 1, inner, by simpa [List.getD_cons_succ] using hi⟩
      · rintro ⟨i, inner, hi⟩
        cases i with
        | zero => rw [List.getD_cons_zero] at hi; exact Option.noConfusion hi
        | succ n => exact ⟨n, inner, by simpa [List.getD_cons_succ] using hi⟩
    | some p =>
      obtain ⟨kp, innp⟩ := p
      show k ∈ kp :: rest.foldr _ [] ↔ _
      constructor
      · intro h
        rcases List.mem_cons.mp h with heq | hrest
        · exact ⟨0, innp, by simp [List.getD_cons_zero, heq]⟩
        · obtain ⟨i, inner, hi⟩ := ih.mp hrest
          exact ⟨i + 1, inner, by simpa [List.getD_cons_succ] using hi⟩
      · rintro ⟨i, inner, hi⟩
        cases i with
        | zero =>
          rw [List.getD_cons_zero] at hi
          obtain ⟨h1, -⟩ := Prod.mk.injEq _ _ _ _ ▸ Option.some.injEq _ _ ▸ hi
          exact List.mem_cons.mpr (Or.inl h1.symm)
        | succ n =>
          rw [List.getD_cons_succ] at hi
          exact List.mem_cons.mpr (Or.inr (ih.mpr ⟨n, inner, hi⟩))

/-- Claim C6: when a successful `delete((k1,k2))` removes the last
second-level entry under `k1` — that is, every slot holding `k1` (there
is at most one) stores exactly the single second key `k2` — the outer
slot owning that inner table is cleared, the outer occupancy count is
decremented, and `k1` no longer appears in `keys()` with no argument. -/
theorem c6_cascading_cleanup (t : DKT) (k1 k2 : String) (t1 : DKT)
    (hone : ∀ i < t.array.length, ∀ j < t.array.length,
        (t.array.getD i none).map Prod.fst = some k1 →
        (t.array.getD j none).map Prod.fst = some k1 → i = j)
    (hsing : ∀ i < t.array.length,
        (t.array.getD i none).map Prod.fst = some k1 →
        (t.array.getD i none).map (fun p => p.2.keysI) = some [k2])
    (hdel : t.delItem k1 k2 = (none, t1)) :
    t1.count = t.count - 1 ∧ k1 ∉ t1.keysNone ∧
      (∀ i, (t.array.getD i none).map Prod.fst = some k1 →
        t1.array.getD i none = none) := by
  rcases delItem_cases t k1 k2 none t1 hdel with
    ⟨⟨e, he⟩, -⟩ | ⟨-, i, inner, v, hilt, hslot, hlk, hcase⟩
  · exact absurd he (by simp)
  · have hkeys : inner.keysI = [k2] := by
      have := hsing i hilt (by rw [hslot]; rfl)
      rw [hslot] at this
      exact Option.some.injEq _ _ ▸ this
    have hent : ∃ w, inner.entries = [(k2, w)] := by
      unfold InnerT.keysI at hkeys
      cases hil : inner.entries with
      | nil => rw [hil] at hkeys; simp at hkeys
      | cons p prest =>
        rw [hil] at hkeys
        simp only [List.map_cons, List.cons.injEq] at hkeys
        obtain ⟨hp1, hprest⟩ := hkeys
        have : prest = [] := List.map_eq_nil_iff.mp hprest
        subst this
        exact ⟨p.2, by rw [← hp1]⟩
    obtain ⟨w, hent⟩ := hent
    have hrm : assocRemove k2 inner.entries = [] := by
      rw [hent]; simp [assocRemove]
    rcases hcase with ⟨-, ht1⟩ | ⟨hne, -⟩
    · subst ht1
      refine ⟨rfl, ?_, ?_⟩
      · intro hmem
        obtain ⟨j, innj, hj⟩ := (keysNone_mem _ k1).mp hmem
        show False
        by_cases hij : i = j
        · subst hij
          dsimp only at hj
          rw [getD_set_self t.array i none none hilt] at hj
          exact Option.noConfusion hj
        · dsimp only at hj
          rw [getD_set_ne t.array none none hij] at hj
          have hjlt : j < t.array.length :=
            getD_lt_of_isSome (by rw [hj]; exact fun hcon => Option.noConfusion hcon)
          exact hij (hone i hilt j hjlt (by rw [hslot]; rfl) (by rw [hj]; rfl))
      · intro i2 hslot2
        have hilt2 : i2 < t.array.length := by
          apply getD_lt_of_isSome
          intro hcon
          rw [hcon] at hslot2
          exact Option.noConfusion hslot2
        have hii : i = i2 := hone i hilt i2 hilt2 (by rw [hslot]; rfl) hslot2
        subst hii
        exact getD_set_self t.array i none none hilt
    · exact absurd hrm hne

/-- Concrete table for the `c6_cascading_cleanup` witness: ladder `[5,13]`
with the single pair `("a","x")→1`. -/
def tA1 : DKT := ((dktNew (some [5, 13]) none).setItem "a" "x" 1).2

/-- Witness for `c6_cascading_cleanup`: deleting `("a","x")` from `tA1`
empties the only inner table under `"a"`. -/
theorem c6_cascading_cleanup_witness :
    (∀ i < tA1.array.length, ∀ j < tA1.array.length,
        (tA1.array.getD i none).map Prod.fst = some "a" →
        (tA1.array.getD j none).map Prod.fst = some "a" → i = j) ∧
    (tA1.delItem "a" "x").2.count = tA1.count - 1 ∧
    "a" ∉ (tA1.delItem "a" "x").2.keysNone :=
  have h := c6_cascading_cleanup tA1 "a" "x" (tA1.delItem "a" "x").2
    (by decide) (by decide) (by decide)
  ⟨by decide, h.1, h.2.1⟩

/-- A `set` on a fresh inner table with positive first inner-ladder entry
always succeeds (the fresh table cannot be full). -/
theorem setI_mk0_ok (sizes : List Nat) (k : String) (v : Nat)
    (h : 0 < sizes.getD 0 0) :
    (InnerT.mk0 sizes).setI k v =
      .ok (InnerT.resizeCheck ⟨sizes, 0, [(k, v)]⟩) := by
  unfold InnerT.setI InnerT.mk0
  have hf : (InnerT.mk0 sizes).isFullI = false := by
    unfold InnerT.isFullI InnerT.mk0 InnerT.capacity
    simp only [List.length_nil, beq_eq_false_iff_ne]
    omega
  unfold InnerT.mk0 at hf
  rw [hf]
  simp [assocLookup]

/-- Full case analysis of the write phase of `__setitem__` (probe plus
inner write, before the rehash trigger), assuming a non-empty outer array
and a positive first inner-ladder entry. -/
theorem setItemNoRe_cases (t : DKT) (k1 k2 : String) (v : Nat)
    (hn : 0 < t.tableSize) (hcap : 0 < t.internalSizes.getD 0 0) :
    ∀ e t1 trig, DKT.setItemNoRe t k1 k2 v = (e, t1, trig) →
      ((∃ e2, e = some e2) ∧ t1 = t ∧ trig = false) ∨
      (e = none ∧ trig = decide (2 * t1.count > t1.tableSize) ∧
        ∃ i, i < t.array.length ∧
        ((∃ inner inner1, t.array.getD i none = some (k1, inner) ∧
            inner.setI k2 v = .ok inner1 ∧ t1.count = t.count ∧
            t1 = { t with array := t.array.set i (some (k1, inner1)) }) ∨
         (∃ inner1, t.array.getD i none = none ∧
            (InnerT.mk0 t.internalSizes).setI k2 v = .ok inner1 ∧
            t1.count = t.count + 1 ∧
            t1 = { t with count := t.count + 1,
                          array := t.array.set i (some (k1, inner1)) }))) := by
  intro e t1 trig hset
  unfold DKT.setItemNoRe at hset
  unfold DKT.linearProbe at hset
  cases hpr : DKT.probeLoop t k1 k2 true t.tableSize (t.hash1 k1) with
  | mk pres tp =>
    rw [hpr] at hset
    cases pres with
    | error pe =>
      have htp := probeLoop_insert_error t k1 k2 _ _ _ _ hpr
      rw [htp] at hset
      simp only [Prod.mk.injEq] at hset
      exact Or.inl ⟨⟨pe, hset.1.symm⟩, hset.2.1.symm, hset.2.2.symm⟩
    | ok pr =>
      obtain ⟨oi, oj⟩ := pr
      obtain ⟨i, hoi, hilt, hcase⟩ :=
        probeLoop_insert_ok t k1 k2 _ _ (hash1_lt t k1 hn) _ _ _ hpr
      subst hoi
      rcases hcase with ⟨inner, j, hslot, hprb, hoj, htp⟩ | ⟨hslot, hoj, htp⟩
      · rw [htp] at hset
        simp only [hslot] at hset
        cases hsi : inner.setI k2 v with
        | error e2 =>
          rw [hsi] at hset
          simp only [Prod.mk.injEq] at hset
          exact Or.inl ⟨⟨e2, hset.1.symm⟩, hset.2.1.symm, hset.2.2.symm⟩
        | ok inner1 =>
          rw [hsi] at hset
          simp only [Prod.mk.injEq] at hset
          obtain ⟨he, ht1, htr⟩ := hset
          refine Or.inr ⟨he.symm, ?_, i, hilt,
            Or.inl ⟨inner, inner1, hslot, hsi, ?_, ht1.symm⟩⟩
          · rw [← ht1, ← htr]
          · rw [← ht1]
      · rw [htp] at hset
        simp only [getD_set_self t.array i _ none hilt] at hset
        rw [setI_mk0_ok t.internalSizes k2 v hcap] at hset
        simp only [Prod.mk.injEq] at hset
        obtain ⟨he, ht1, htr⟩ := hset
        refine Or.inr ⟨he.symm, ?_, i, hilt,
          Or.inr ⟨InnerT.resizeCheck ⟨t.internalSizes, 0, [(k2, v)]⟩,
            hslot, setI_mk0_ok t.internalSizes k2 v hcap, ?_, ?_⟩⟩
        · rw [← ht1, ← htr]
        · rw [← ht1]
        · rw [← ht1, List.set_set]

/-- Claim C5: on a table whose outer array is non-empty, whose first inner
ladder entry is positive (spec section 6 requires positive ladder
entries), and which either has room for one more first key below the
half-capacity trigger or has already exhausted its outer ladder (so a
triggered rehash aborts):
every `set` or `delete` that raises leaves the table state exactly as it
was — in particular a failing `set` creates no inner table and leaves
`count` unchanged — and a successful `delete` never leaves an outer slot
owning an empty inner table. -/
theorem c5_atomicity (t : DKT)
    (hn : 0 < t.tableSize)
    (hcap : 0 < t.internalSizes.getD 0 0)
    (hsafe : 2 * (t.count + 1) ≤ t.tableSize ∨ t.sizes.length ≤ t.sizeIndex + 1)
    (hne : ∀ i < t.array.length,
        (t.array.getD i none).map (fun p => p.2.entries.isEmpty) ≠ some true) :
    (∀ k1 k2 v e t1, t.setItem k1 k2 v = (some e, t1) → t1 = t) ∧
    (∀ k1 k2 e t1, t.delItem k1 k2 = (some e, t1) → t1 = t) ∧
    (∀ k1 k2 t1, t.delItem k1 k2 = (none, t1) →
        ∀ i < t1.array.length,
          (t1.array.getD i none).map (fun p => p.2.entries.isEmpty) ≠ some true) := by
  refine ⟨?_, ?_, ?_⟩
  · intro k1 k2 v e t1 hs
    unfold DKT.setItem DKT.setItemF at hs
    cases hnr : DKT.setItemNoRe t k1 k2 v with
    | mk e3 rest3 =>
      obtain ⟨t3, trig⟩ := rest3
      rw [hnr] at hs
      rcases setItemNoRe_cases t k1 k2 v hn hcap _ _ _ hnr with
        ⟨⟨e2, he2⟩, ht3, htr⟩ | ⟨he3, htr, i, hilt, hcase⟩
      · subst he2
        simp only [Prod.mk.injEq] at hs
        exact hs.2.symm ▸ ht3
      · subst he3
        simp only at hs
        -- the write succeeded; an error can only come from the rehash call
        have hts : t3.tableSize = t.tableSize := by
          rcases hcase with ⟨inner, inner1, -, -, -, ht3⟩ | ⟨inner1, -, -, -, ht3⟩ <;>
            (subst ht3; simp [DKT.tableSize, List.length_set])
        have hcnt : t3.count ≤ t.count + 1 := by
          rcases hcase with ⟨inner, inner1, -, -, hc, -⟩ | ⟨inner1, -, -, hc, -⟩ <;> omega
        have hsz : t3.sizes = t.sizes := by
          rcases hcase with ⟨inner, inner1, -, -, -, ht3⟩ | ⟨inner1, -, -, -, ht3⟩ <;>
            (subst ht3; rfl)
        have hsi : t3.sizeIndex = t.sizeIndex := by
          rcases hcase with ⟨inner, inner1, -, -, -, ht3⟩ | ⟨inner1, -, -, -, ht3⟩ <;>
            (subst ht3; rfl)
        by_cases htrig : trig = true
        · rw [htrig, if_pos rfl] at hs
          rcases hsafe with hroom | hex
          · -- no rehash can actually be triggered: contradiction
            rw [htrig] at htr
            have : 2 * t3.count > t3.tableSize := of_decide_eq_true htr.symm
            rw [hts] at this
            omega
          · -- ladder exhausted: the rehash aborts successfully
            rw [rehashF_succ_eq] at hs
            rw [if_pos (by rw [hsz, hsi]; omega : t3.sizeIndex + 1 ≥ t3.sizes.length)] at hs
            simp at hs
        · rw [Bool.not_eq_true] at htrig
          rw [htrig] at hs
          simp at hs
  · intro k1 k2 e t1 hd
    rcases delItem_cases t k1 k2 _ _ hd with ⟨-, ht1⟩ | ⟨hnone, -⟩
    · exact ht1
    · exact absurd hnone (by simp)
  · intro k1 k2 t1 hd i2 hi2 hcon
    rcases delItem_cases t k1 k2 _ _ hd with ⟨⟨e2, he2⟩, -⟩ | ⟨-, i, inner, v, hilt, hslot, hlk, hcase⟩
    · exact Option.noConfusion he2
    · rcases hcase with ⟨hrm, ht1⟩ | ⟨hrm, ht1⟩
      · subst ht1
        rw [List.length_set] at hi2
        by_cases hij : i = i2
        · subst hij
          rw [getD_set_self t.array i none none hilt] at hcon
          exact Option.noConfusion hcon
        · rw [getD_set_ne t.array none none hij] at hcon
          exact hne i2 hi2 hcon
      · subst ht1
        rw [List.length_set] at hi2
        by_cases hij : i = i2
        · subst hij
          rw [getD_set_self t.array i _ none hilt] at hcon
          have : (assocRemove k2 inner.entries).isEmpty = true := by
            simpa using hcon
          rw [List.isEmpty_iff] at this
          exact hrm this
        · rw [getD_set_ne t.array _ none hij] at hcon
          exact hne i2 hi2 hcon

/-- Witness for `c5_atomicity` at the concrete table `tA1`. -/
theorem c5_atomicity_witness :
    (0 < tA1.tableSize ∧ 0 < tA1.internalSizes.getD 0 0 ∧
      2 * (tA1.count + 1) ≤ tA1.tableSize) ∧
    (∀ k1 k2 e t1, tA1.delItem k1 k2 = (some e, t1) → t1 = tA1) :=
  ⟨by decide,
   (c5_atomicity tA1 (by decide) (by decide) (Or.inl (by decide)) (by decide)).2.1⟩

/-! ## Pure probe scan, for the rehash-preservation proof -/

/-- The pure content of the outer probe loop: scan from `idx` with the
given fuel; `some (i, true)` means the first key was found at slot `i`,
`some (i, false)` that slot `i` is the first empty slot on the probe
path, and `none` that the fuel ran out with every probed slot occupied
by other keys. -/
def scanA (a : List (Option (String × InnerT))) (k1 : String) :
    Nat → Nat → Option (Nat × Bool)
  | 0, _ => none
  | fuel + 1, idx =>
    match a.getD idx none with
    | none => some (idx, false)
    | some (k, _) =>
      if k = k1 then some (idx, true)
      else scanA a k1 fuel ((idx + 1) % a.length)

theorem scanA_found {a : List (Option (String × InnerT))} {k1 : String} :
    ∀ {fuel idx i}, scanA a k1 fuel idx = some (i, true) →
      ∃ inn, a.getD i none = some (k1, inn) := by
  intro fuel
  induction fuel with
  | zero => intro idx i h; exact Option.noConfusion h
  | succ n ih =>
    intro idx i h
    simp only [scanA] at h
    cases hslot : a.getD idx none with
    | none =>
      rw [hslot] at h
      obtain ⟨h1, -⟩ := Prod.mk.injEq _ _ _ _ ▸ Option.some.injEq _ _ ▸ h
      simp at h
    | some p =>
      obtain ⟨k, inn⟩ := p
      rw [hslot] at h
      by_cases hk : k = k1
      · rw [hk] at h
        simp only [eq_self_iff_true, if_true] at h
        obtain ⟨h1, -⟩ := Prod.mk.injEq _ _ _ _ ▸ Option.some.injEq _ _ ▸ h
        exact ⟨inn, by rw [← h1, hslot, hk]⟩
      · simp only [if_neg hk] at h
        exact ih h

theorem scanA_free {a : List (Option (String × InnerT))} {k1 : String} :
    ∀ {fuel idx i}, idx < a.length → scanA a k1 fuel idx = some (i, false) →
      a.getD i none = none ∧ i < a.length := by
  intro fuel
  induction fuel with
  | zero => intro idx i _ h; exact Option.noConfusion h
  | succ n ih =>
    intro idx i hidx h
    simp only [scanA] at h
    cases hslot : a.getD idx none with
    | none =>
      rw [hslot] at h
      obtain ⟨h1, -⟩ := Prod.mk.injEq _ _ _ _ ▸ Option.some.injEq _ _ ▸ h
      exact ⟨h1 ▸ hslot, h1 ▸ hidx⟩
    | some p =>
      obtain ⟨k, inn⟩ := p
      rw [hslot] at h
      by_cases hk : k = k1
      · rw [hk] at h; simp at h
      · simp only [if_neg hk] at h
        exact ih (Nat.mod_lt _ (Nat.lt_of_le_of_lt (Nat.zero_le idx) hidx)) h

theorem scanA_none_spec {a : List (Option (String × InnerT))} {k1 : String} :
    ∀ {fuel idx}, idx < a.length → scanA a k1 fuel idx = none →
      ∀ j < fuel, ∃ p, a.getD ((idx + j) % a.length) none = some p ∧ p.1 ≠ k1 := by
  intro fuel
  induction fuel with
  | zero => intro idx _ _ j hj; omega
  | succ n ih =>
    intro idx hidx h j hj
    simp only [scanA] at h
    cases hslot : a.getD idx none with
    | none => rw [hslot] at h; exact Option.noConfusion h
    | some p =>
      obtain ⟨k, inn⟩ := p
      rw [hslot] at h
      by_cases hk : k = k1
      · rw [hk] at h; simp at h
      · simp only [if_neg hk] at h
        cases j with
        | zero =>
          refine ⟨(k, inn), ?_, hk⟩
          rw [Nat.add_zero, Nat.mod_eq_of_lt hidx]
          exact hslot
        | succ j2 =>
          have hidx2 : (idx + 1) % a.length < a.length :=
            Nat.mod_lt _ (Nat.lt_of_le_of_lt (Nat.zero_le idx) hidx)
          obtain ⟨p, hp, hpne⟩ := ih hidx2 h j2 (by omega)
          refine ⟨p, ?_, hpne⟩
          rw [Nat.mod_add_mod, show idx + 1 + j2 = idx + (j2 + 1) from by omega] at hp
          exact hp

/-- If a full-length scan runs out of fuel, every slot of the array is
occupied. -/
theorem full_of_scanA_none {a : List (Option (String × InnerT))} {k1 : String} {idx : Nat}
    (hidx : idx < a.length) (h : scanA a k1 a.length idx = none) :
    ∀ i < a.length, a.getD i none ≠ none := by
  intro i hi hcon
  have hn : 0 < a.length := Nat.lt_of_le_of_lt (Nat.zero_le idx) hidx
  have hex : ∃ j, j < a.length ∧ (idx + j) % a.length = i := by
    refine ⟨(i + a.length - idx) % a.length, Nat.mod_lt _ hn, ?_⟩
    rw [Nat.add_mod_mod]
    rw [show idx + (i + a.length - idx) = i + a.length from by omega]
    rw [Nat.add_mod_right, Nat.mod_eq_of_lt hi]
  obtain ⟨j, hj, hji⟩ := hex
  obtain ⟨p, hp, -⟩ := scanA_none_spec hidx h j hj
  rw [hji, hcon] at hp
  exact Option.noConfusion hp

theorem countP_eq_length_of_all_isSome {α : Type} (l : List (Option α))
    (h : ∀ i < l.length, l.getD i none ≠ none) :
    l.countP (fun s => s.isSome) = l.length := by
  induction l with
  | nil => rfl
  | cons s rest ih =>
    have h0 := h 0 (by simp)
    rw [List.getD_cons_zero] at h0
    cases s with
    | none => exact absurd rfl h0
    | some x =>
      have hrest : rest.countP (fun s => s.isSome) = rest.length := by
        refine ih (fun i hi => ?_)
        have := h (i + 1) (by simpa using Nat.succ_lt_succ hi)
        rwa [List.getD_cons_succ] at this
      simp [List.countP_cons, hrest]

/-- The scan result depends only on the lengths and the per-slot key
masks of the two arrays. -/
theorem scanA_congr {a b : List (Option (String × InnerT))} (hlen : a.length = b.length)
    (hk : ∀ j, (a.getD j none).map Prod.fst = (b.getD j none).map Prod.fst) (k1 : String) :
    ∀ fuel idx, scanA a k1 fuel idx = scanA b k1 fuel idx := by
  intro fuel
  induction fuel with
  | zero => intro idx; rfl
  | succ n ih =>
    intro idx
    simp only [scanA]
    have hj := hk idx
    cases ha : a.getD idx none with
    | none =>
      cases hb : b.getD idx none with
      | none => rfl
      | some q => rw [ha, hb] at hj; simp at hj
    | some p =>
      obtain ⟨pk, pi⟩ := p
      cases hb : b.getD idx none with
      | none => rw [ha, hb] at hj; simp at hj
      | some q =>
        obtain ⟨qk, qi⟩ := q
        rw [ha, hb] at hj
        have hkk : pk = qk := by simpa using hj
        subst hkk
        by_cases hpk : pk = k1
        · simp only [hpk, eq_self_iff_true, if_true]
        · simp only [if_neg hpk, hlen]
          exact ih _

/-- Filling the free slot found by a scan makes the scan find the key
there. -/
theorem scanA_set_self {a : List (Option (String × InnerT))} {k1 : String} {inn : InnerT} :
    ∀ {fuel idx i}, idx < a.length → scanA a k1 fuel idx = some (i, false) →
      scanA (a.set i (some (k1, inn))) k1 fuel idx = some (i, true) := by
  intro fuel
  induction fuel with
  | zero => intro idx i _ h; exact Option.noConfusion h
  | succ n ih =>
    intro idx i hidx h
    have hfree := (scanA_free hidx h).1
    have hilt := (scanA_free hidx h).2
    simp only [scanA] at h ⊢
    cases hslot : a.getD idx none with
    | none =>
      rw [hslot] at h
      obtain ⟨h1, -⟩ := Prod.mk.injEq _ _ _ _ ▸ Option.some.injEq _ _ ▸ h
      subst h1
      rw [getD_set_self _ _ _ _ hilt]
      simp
    | some p =>
      obtain ⟨k, inn2⟩ := p
      rw [hslot] at h
      by_cases hk : k = k1
      · rw [hk] at h; simp at h
      · simp only [if_neg hk] at h
        have hne : i ≠ idx := by
          intro hcon
          rw [hcon, hslot] at hfree
          exact Option.noConfusion hfree
        rw [getD_set_ne _ _ _ hne, hslot]
        simp only [if_neg hk, List.length_set]
        exact ih (Nat.mod_lt _ (Nat.lt_of_le_of_lt (Nat.zero_le idx) hidx)) h

/-- Filling a free slot with a different key does not disturb scans that
found their key. -/
theorem scanA_set_frame {a : List (Option (String × InnerT))} {k1 kx : String} {inn : InnerT}
    {i : Nat} (hne : kx ≠ k1) (hfree : a.getD i none = none) :
    ∀ {fuel idx j}, scanA a kx fuel idx = some (j, true) →
      scanA (a.set i (some (k1, inn))) kx fuel idx = some (j, true) := by
  intro fuel
  induction fuel with
  | zero => intro idx j h; exact Option.noConfusion h
  | succ n ih =>
    intro idx j h
    simp only [scanA] at h ⊢
    cases hslot : a.getD idx none with
    | none =>
      rw [hslot] at h
      simp at h
    | some p =>
      obtain ⟨k, inn2⟩ := p
      have hidxne : i ≠ idx := by
        intro hcon
        rw [hcon, hslot] at hfree
        exact Option.noConfusion hfree
      rw [hslot] at h
      rw [getD_set_ne _ _ _ hidxne, hslot]
      by_cases hk : k = kx
      · rw [hk] at h ⊢
        simp only [eq_self_iff_true, if_true] at h ⊢
        exact h
      · simp only [if_neg hk, List.length_set] at h ⊢
        exact ih h

/-! ## Probe loop versus scan -/

theorem tableSize_eq (t : DKT) : t.tableSize = t.array.length := rfl

theorem scanA_found_probe (t : DKT) (k1 k2 : String) (isIns : Bool) :
    ∀ {fuel idx i inner}, scanA t.array k1 fuel idx = some (i, true) →
      t.array.getD i none = some (k1, inner) →
      DKT.probeLoop t k1 k2 isIns fuel idx =
        (match inner.probe k2 isIns with
         | .error e => (.error e, t)
         | .ok j => (.ok (some i, some j), t)) := by
  intro fuel
  induction fuel with
  | zero => intro idx i inner h _; exact Option.noConfusion h
  | succ n ih =>
    intro idx i inner h hslot
    simp only [scanA] at h
    simp only [DKT.probeLoop]
    cases hs : t.array.getD idx none with
    | none => rw [hs] at h; simp at h
    | some p =>
      obtain ⟨k, inn2⟩ := p
      rw [hs] at h
      by_cases hk : k = k1
      · rw [hk] at h
        simp only [eq_self_iff_true, if_true] at h
        obtain ⟨h1, -⟩ := Prod.mk.injEq _ _ _ _ ▸ Option.some.injEq _ _ ▸ h
        subst h1
        rw [hslot] at hs
        obtain ⟨-, h3⟩ := Prod.mk.injEq _ _ _ _ ▸ Option.some.injEq _ _ ▸ hs
        subst h3
        simp only [hk, eq_self_iff_true, if_true]
      · simp only [if_neg hk] at h ⊢
        rw [tableSize_eq]
        exact ih h hslot

theorem scanA_free_probeInsert (t : DKT) (k1 k2 : String) :
    ∀ {fuel idx i}, idx < t.array.length → scanA t.array k1 fuel idx = some (i, false) →
      DKT.probeLoop t k1 k2 true fuel idx =
        (.ok (some i, some (t.hash2 (InnerT.mk0 t.internalSizes) k2)),
         { t with count := t.count + 1,
                  array := t.array.set i (some (k1, InnerT.mk0 t.internalSizes)) }) := by
  intro fuel
  induction fuel with
  | zero => intro idx i _ h; exact Option.noConfusion h
  | succ n ih =>
    intro idx i hidx h
    simp only [scanA] at h
    simp only [DKT.probeLoop]
    cases hs : t.array.getD idx none with
    | none =>
      rw [hs] at h
      obtain ⟨h1, -⟩ := Prod.mk.injEq _ _ _ _ ▸ Option.some.injEq _ _ ▸ h
      subst h1
      rfl
    | some p =>
      obtain ⟨k, inn2⟩ := p
      rw [hs] at h
      by_cases hk : k = k1
      · rw [hk] at h; simp at h
      · simp only [if_neg hk] at h ⊢
        rw [tableSize_eq]
        exact ih (Nat.mod_lt _ (Nat.lt_of_le_of_lt (Nat.zero_le idx) hidx)) h

theorem scanA_none_probeInsert (t : DKT) (k1 k2 : String) :
    ∀ {fuel idx}, scanA t.array k1 fuel idx = none →
      DKT.probeLoop t k1 k2 true fuel idx = (.error .typeError, t) := by
  intro fuel
  induction fuel with
  | zero => intro idx _; rfl
  | succ n ih =>
    intro idx h
    simp only [scanA] at h
    simp only [DKT.probeLoop]
    cases hs : t.array.getD idx none with
    | none => rw [hs] at h; exact Option.noConfusion h
    | some p =>
      obtain ⟨k, inn2⟩ := p
      rw [hs] at h
      by_cases hk : k = k1
      · rw [hk] at h; simp at h
      · simp only [if_neg hk] at h ⊢
        rw [tableSize_eq]
        exact ih h

/-! ## Probe well-formedness -/

/-- Boolean check that the occupant of slot `i` (if any) is found by the
full-length probe scan starting at its hash index. -/
def slotFoundB (t : DKT) (i : Nat) : Bool :=
  match t.array.getD i none with
  | none => true
  | some p => scanA t.array p.1 t.array.length (t.hash1 p.1) == some (i, true)

/-- Probe well-formedness of the outer table: the count invariant, a
non-empty array, and every stored first key being found by its probe
sequence.  This is the invariant the table maintains in the absence of
deletions (deletions break it, see the C2/C9 counterexamples). -/
def DKT.WFouter (t : DKT) : Prop :=
  t.countInv ∧ 0 < t.array.length ∧ ∀ i < t.array.length, slotFoundB t i = true

instance (t : DKT) : Decidable t.WFouter := by
  unfold DKT.WFouter; infer_instance

theorem WFouter_found {t : DKT} (h : t.WFouter) {i : Nat} {k1 : String} {inner : InnerT}
    (hslot : t.array.getD i none = some (k1, inner)) :
    scanA t.array k1 t.array.length (t.hash1 k1) = some (i, true) := by
  have hilt : i < t.array.length :=
    getD_lt_of_isSome (by rw [hslot]; exact fun hc => Option.noConfusion hc)
  have hb := h.2.2 i hilt
  unfold slotFoundB at hb
  rw [hslot] at hb
  exact eq_of_beq hb

/-- In a probe-well-formed table, no two slots hold the same first key. -/
theorem WFouter_unique {t : DKT} (h : t.WFouter) {i j : Nat} {k1 : String}
    {inni innj : InnerT} (hi : t.array.getD i none = some (k1, inni))
    (hj : t.array.getD j none = some (k1, innj)) : i = j := by
  have h1 := WFouter_found h hi
  have h2 := WFouter_found h hj
  rw [h1] at h2
  exact (Prod.mk.injEq _ _ _ _ ▸ Option.some.injEq _ _ ▸ h2).1

/-- In a probe-well-formed table, a stored pair is returned by `get`. -/
theorem stored_getItem (t : DKT) (h : t.WFouter) {i : Nat} {k1 k2 : String}
    {inner : InnerT} {v : Nat}
    (hslot : t.array.getD i none = some (k1, inner))
    (hlk : assocLookup k2 inner.entries = some v) :
    (t.getItem k1 k2).1 = .ok v := by
  have hscan := WFouter_found h hslot
  have hj : ∃ j, assocIndex k2 inner.entries = some j := by
    rw [← Option.isSome_iff_exists, assocIndex_isSome_iff, hlk]
    rfl
  obtain ⟨j, hjv⟩ := hj
  have hpr : inner.probe k2 false = .ok j := by
    unfold InnerT.probe; rw [hjv]
  have hprobe := scanA_found_probe t k1 k2 false hscan hslot
  rw [hpr] at hprobe
  unfold DKT.getItem DKT.linearProbe
  rw [tableSize_eq, hprobe]
  simp only [hslot]
  unfold InnerT.getI
  rw [hlk]

/-- `get` succeeding implies the pair is physically stored. -/
theorem getItem_ok_stored (t : DKT) {k1 k2 : String} {v : Nat}
    (h : (t.getItem k1 k2).1 = .ok v) :
    ∃ i inner, t.array.getD i none = some (k1, inner) ∧
      assocLookup k2 inner.entries = some v := by
  unfold DKT.getItem DKT.linearProbe at h
  cases hpr : DKT.probeLoop t k1 k2 false t.tableSize (t.hash1 k1) with
  | mk pres tp =>
    rw [hpr] at h
    cases pres with
    | error e => simp at h
    | ok pr =>
      obtain ⟨oi, oj⟩ := pr
      obtain ⟨htp, hcase⟩ := probeLoop_lookup_ok t k1 k2 _ _ _ _ _ hpr
      rw [htp] at h
      rcases hcase with ⟨hoi, -⟩ | ⟨i, j, inner, hoi, hoj, hslot, hprb⟩
      · subst hoi; simp at h
      · subst hoi
        simp only [hslot] at h
        cases hg : inner.getI k2 with
        | error e => rw [hg] at h; simp at h
        | ok w =>
          rw [hg] at h
          simp only at h
          have hv : w = v := by
            have h2 := h
            simpa using h2
          subst hv
          unfold InnerT.getI at hg
          cases hlk : assocLookup k2 inner.entries with
          | none => rw [hlk] at hg; exact Except.noConfusion hg
          | some u =>
            rw [hlk] at hg
            have hu : u = w := Except.ok.injEq _ _ ▸ hg
            exact ⟨i, inner, hslot, by rw [hlk, hu]⟩

/-! ## Rebuilding an inner table from its entries -/

/-- One step of rebuilding an inner table: feed the next (key, value)
pair to `set`, propagating failure. -/
def buildStep (acc : Except DKErr InnerT) (p : String × Nat) : Except DKErr InnerT :=
  match acc with
  | .error e => .error e
  | .ok s => s.setI p.1 p.2

/-- Rebuild a fresh inner table from a list of entries, as the outer
rehash does when it reinserts the pairs of one first key in order. -/
def InnerT.buildList (sizes : List Nat) (E : List (String × Nat)) : Except DKErr InnerT :=
  E.foldl buildStep (.ok (InnerT.mk0 sizes))

theorem buildStep_foldl_error (e : DKErr) :
    ∀ E : List (String × Nat), E.foldl buildStep (.error e) = .error e := by
  intro E
  induction E with
  | nil => rfl
  | cons p rest ih => simpa [List.foldl_cons, buildStep] using ih

theorem buildList_append_one (sizes : List Nat) (E : List (String × Nat))
    (p : String × Nat) :
    InnerT.buildList sizes (E ++ [p]) =
      match InnerT.buildList sizes E with
      | .error e => .error e
      | .ok s => s.setI p.1 p.2 := by
  unfold InnerT.buildList
  rw [List.foldl_append]
  cases h : E.foldl buildStep (.ok (InnerT.mk0 sizes)) with
  | error e => simp [buildStep]
  | ok s => simp [buildStep]

theorem buildList_prefix_ok (sizes : List Nat) {E1 E2 : List (String × Nat)} {s : InnerT}
    (h : InnerT.buildList sizes (E1 ++ E2) = .ok s) :
    ∃ s1, InnerT.buildList sizes E1 = .ok s1 := by
  unfold InnerT.buildList at h ⊢
  rw [List.foldl_append] at h
  cases hE : E1.foldl buildStep (.ok (InnerT.mk0 sizes)) with
  | ok s1 => exact ⟨s1, rfl⟩
  | error e =>
    rw [hE, buildStep_foldl_error] at h
    exact Except.noConfusion h

theorem resizeCheck_entries (s : InnerT) :
    (InnerT.resizeCheck s).entries = s.entries ∧ (InnerT.resizeCheck s).sizes = s.sizes := by
  unfold InnerT.resizeCheck
  split
  · split <;> exact ⟨rfl, rfl⟩
  · exact ⟨rfl, rfl⟩

/-- Inserting a fresh key into an inner table appends the pair. -/
theorem setI_fresh_entries {s : InnerT} {k : String} {v : Nat} {s1 : InnerT}
    (hlk : assocLookup k s.entries = none) (h : s.setI k v = .ok s1) :
    s1.entries = s.entries ++ [(k, v)] := by
  unfold InnerT.setI at h
  rw [hlk] at h
  simp only [Option.isSome_none, Bool.false_eq_true, if_false] at h
  by_cases hf : s.isFullI = true
  · rw [if_pos hf] at h; exact Except.noConfusion h
  · rw [if_neg hf] at h
    have h2 := Except.ok.injEq _ _ ▸ h
    rw [← h2]
    exact (resizeCheck_entries _).1

theorem assocLookup_some_mem {k : String} {v : Nat} :
    ∀ {l : List (String × Nat)}, assocLookup k l = some v → k ∈ l.map Prod.fst := by
  intro l
  induction l with
  | nil => intro h; exact Option.noConfusion h
  | cons p rest ih =>
    intro h
    unfold assocLookup at h
    by_cases hp : p.1 = k
    · exact List.mem_cons.mpr (Or.inl hp.symm)
    · rw [if_neg hp] at h
      exact List.mem_cons.mpr (Or.inr (ih h))

theorem assocLookup_eq_none_of_not_mem {k : String} {l : List (String × Nat)}
    (h : k ∉ l.map Prod.fst) : assocLookup k l = none := by
  cases hl : assocLookup k l with
  | none => rfl
  | some v => exact absurd (assocLookup_some_mem hl) h

/-- Rebuilding from a duplicate-free entry list reproduces the entries
exactly. -/
theorem buildList_entries_aux (sizes : List Nat) :
    ∀ (E : List (String × Nat)) (s0 : InnerT),
      (s0.entries.map Prod.fst ++ E.map Prod.fst).Nodup →
      ∀ s, E.foldl buildStep (.ok s0) = .ok s → s.entries = s0.entries ++ E := by
  intro E
  induction E with
  | nil =>
    intro s0 _ s h
    simp only [List.foldl_nil] at h
    have h2 := Except.ok.injEq _ _ ▸ h
    rw [← h2]
    simp
  | cons p E2 ih =>
    intro s0 hnd s h
    rw [List.foldl_cons] at h
    cases hset : s0.setI p.1 p.2 with
    | error e =>
      rw [show buildStep (.ok s0) p = s0.setI p.1 p.2 from rfl, hset,
        buildStep_foldl_error] at h
      exact Except.noConfusion h
    | ok s1 =>
      have hnotmem : p.1 ∉ s0.entries.map Prod.fst := by
        intro hcon
        rw [List.map_cons] at hnd
        exact (List.nodup_append.mp hnd).2.2 hcon (List.mem_cons_self _ _)
      have hlk : assocLookup p.1 s0.entries = none :=
        assocLookup_eq_none_of_not_mem hnotmem
      have hent := setI_fresh_entries hlk hset
      rw [show buildStep (.ok s0) p = s0.setI p.1 p.2 from rfl, hset] at h
      have hnd2 : (s1.entries.map Prod.fst ++ E2.map Prod.fst).Nodup := by
        rw [hent, List.map_append]
        rw [List.map_cons] at hnd
        simpa [List.append_assoc] using hnd
      have hres := ih s1 hnd2 s h
      rw [hres, hent]
      simp

theorem buildList_entries (sizes : List Nat) {E : List (String × Nat)} {s : InnerT}
    (hnd : (E.map Prod.fst).Nodup) (h : InnerT.buildList sizes E = .ok s) :
    s.entries = E := by
  have := buildList_entries_aux sizes E (InnerT.mk0 sizes) (by simpa [InnerT.mk0]) s h
  simpa [InnerT.mk0] using this

/-! ## Triples, groups, and stored keys -/

/-- The (second key, value) pairs of the triples whose first key is `k1`,
in order. -/
def groupOf (l : List (String × String × Nat)) (k1 : String) : List (String × Nat) :=
  (l.filter (fun tr => tr.1 == k1)).map (fun tr => (tr.2.1, tr.2.2))

theorem groupOf_append (a b : List (String × String × Nat)) (k1 : String) :
    groupOf (a ++ b) k1 = groupOf a k1 ++ groupOf b k1 := by
  unfold groupOf
  rw [List.filter_append, List.map_append]

theorem groupOf_cons_self {tr : String × String × Nat} {k1 : String} (h : tr.1 = k1)
    (l : List (String × String × Nat)) :
    groupOf (tr :: l) k1 = (tr.2.1, tr.2.2) :: groupOf l k1 := by
  unfold groupOf
  rw [List.filter_cons_of_pos (by simp [h]), List.map_cons]

theorem groupOf_cons_ne {tr : String × String × Nat} {k1 : String} (h : ¬tr.1 = k1)
    (l : List (String × String × Nat)) :
    groupOf (tr :: l) k1 = groupOf l k1 := by
  unfold groupOf
  rw [List.filter_cons_of_neg (by simp [h])]

theorem groupOf_nil_of_not_mem {l : List (String × String × Nat)} {k1 : String}
    (h : ∀ tr ∈ l, tr.1 ≠ k1) : groupOf l k1 = [] := by
  induction l with
  | nil => rfl
  | cons tr rest ih =>
    rw [groupOf_cons_ne (h tr (List.mem_cons_self _ _))]
    exact ih (fun tr2 h2 => h tr2 (List.mem_cons.mpr (Or.inr h2)))

/-- The pure list version of `DKT.toTriples`. -/
def triplesOf (a : List (Option (String × InnerT))) : List (String × String × Nat) :=
  a.foldr
    (fun slot acc =>
      match slot with
      | none => acc
      | some (k1, inner) => (inner.entries.map (fun p => (k1, p.1, p.2))) ++ acc)
    []

theorem toTriples_eq (t : DKT) : t.toTriples = triplesOf t.array := rfl

theorem groupOf_embed (k k1 : String) (E : List (String × Nat)) :
    groupOf (E.map (fun p => (k, p.1, p.2))) k1 = if k = k1 then E else [] := by
  induction E with
  | nil => by_cases h : k = k1 <;> simp [groupOf, h]
  | cons p rest ih =>
    by_cases h : k = k1
    · rw [List.map_cons, groupOf_cons_self h, ih]
      simp [h]
    · rw [List.map_cons, groupOf_cons_ne h, ih]
      simp [h]

/-- All the (second key, value) pairs stored under `k1`, in array order. -/
def keyEntries (a : List (Option (String × InnerT))) (k1 : String) : List (String × Nat) :=
  a.foldr
    (fun slot acc =>
      match slot with
      | none => acc
      | some (k, inner) => if k = k1 then inner.entries ++ acc else acc)
    []

theorem groupOf_triplesOf (a : List (Option (String × InnerT))) (k1 : String) :
    groupOf (triplesOf a) k1 = keyEntries a k1 := by
  induction a with
  | nil => rfl
  | cons s rest ih =>
    cases s with
    | none => exact ih
    | some p =>
      obtain ⟨k, inner⟩ := p
      show groupOf (inner.entries.map (fun q => (k, q.1, q.2)) ++ triplesOf rest) k1 = _
      rw [groupOf_append, groupOf_embed, ih]
      by_cases h : k = k1
      · rw [if_pos h]
        show _ = if k = k1 then inner.entries ++ keyEntries rest k1 else _
        rw [if_pos h]
      · rw [if_neg h]
        show _ = if k = k1 then inner.entries ++ keyEntries rest k1 else keyEntries rest k1
        rw [if_neg h, List.nil_append]

theorem keyEntries_nil_of_not_stored (k1 : String) :
    ∀ a : List (Option (String × InnerT)),
      (∀ j innj, a.getD j none ≠ some (k1, innj)) → keyEntries a k1 = [] := by
  intro a
  induction a with
  | nil => intro _; rfl
  | cons s rest ih =>
    intro h
    cases s with
    | none =>
      show keyEntries rest k1 = []
      exact ih (fun j innj hc => h (j + 1) innj (by rwa [List.getD_cons_succ]))
    | some p =>
      obtain ⟨k, inner⟩ := p
      show (if k = k1 then inner.entries ++ keyEntries rest k1 else keyEntries rest k1) = []
      by_cases hk : k = k1
      · exact absurd (by rw [List.getD_cons_zero, hk]) (h 0 inner)
      · rw [if_neg hk]
        exact ih (fun j innj hc => h (j + 1) innj (by rwa [List.getD_cons_succ]))

theorem keyEntries_eq_of_unique (k1 : String) :
    ∀ (a : List (Option (String × InnerT))) (i : Nat) (inner : InnerT),
      a.getD i none = some (k1, inner) →
      (∀ j innj, a.getD j none = some (k1, innj) → j = i) →
      keyEntries a k1 = inner.entries := by
  intro a
  induction a with
  | nil => intro i inner h _; rw [List.getD_eq_getElem?_getD, List.getElem?_nil] at h; exact Option.noConfusion h
  | cons s rest ih =>
    intro i inner hslot huniq
    cases i with
    | zero =>
      rw [List.getD_cons_zero] at hslot
      subst hslot
      show (if k1 = k1 then inner.entries ++ keyEntries rest k1 else _) = _
      rw [if_pos rfl]
      have hrest : keyEntries rest k1 = [] := by
        refine keyEntries_nil_of_not_stored k1 rest (fun j innj hc => ?_)
        have := huniq (j + 1) innj (by rwa [List.getD_cons_succ])
        exact Nat.noConfusion this
      rw [hrest, List.append_nil]
    | succ n =>
      rw [List.getD_cons_succ] at hslot
      cases s with
      | none =>
        show keyEntries rest k1 = _
        refine ih n inner hslot (fun j innj hc => ?_)
        have := huniq (j + 1) innj (by rwa [List.getD_cons_succ])
        omega
      | some p =>
        obtain ⟨k, inn2⟩ := p
        show (if k = k1 then inn2.entries ++ keyEntries rest k1 else keyEntries rest k1) = _
        by_cases hk : k = k1
        · exfalso
          have := huniq 0 inn2 (by rw [List.getD_cons_zero, hk])
          exact Nat.noConfusion this
        · rw [if_neg hk]
          refine ih n inner hslot (fun j innj hc => ?_)
          have := huniq (j + 1) innj (by rwa [List.getD_cons_succ])
          omega

/-- Membership of a first key among the triples: some slot holds it with
a non-empty inner table. -/
theorem triplesOf_firsts_mem (k : String) :
    ∀ a : List (Option (String × InnerT)),
      (k ∈ (triplesOf a).map (fun tr => tr.1) ↔
        ∃ i inner, a.getD i none = some (k, inner) ∧ inner.entries ≠ []) := by
  intro a
  induction a with
  | nil =>
    constructor
    · intro h; simp [triplesOf] at h
    · rintro ⟨i, inner, hi, -⟩
      rw [List.getD_eq_getElem?_getD, List.getElem?_nil] at hi
      exact Option.noConfusion hi
  | cons s rest ih =>
    cases s with
    | none =>
      show k ∈ (triplesOf rest).map _ ↔ _
      rw [ih]
      constructor
      · rintro ⟨i, inner, hi, hne⟩
        exact ⟨i + 1, inner, by rwa [List.getD_cons_succ], hne⟩
      · rintro ⟨i, inner, hi, hne⟩
        cases i with
        | zero => rw [List.getD_cons_zero] at hi; exact Option.noConfusion hi
        | succ n =>
          rw [List.getD_cons_succ] at hi
          exact ⟨n, inner, hi, hne⟩
    | some p =>
      obtain ⟨k1, inner⟩ := p
      show k ∈ (inner.entries.map (fun q => (k1, q.1, q.2)) ++ triplesOf rest).map _ ↔ _
      rw [List.map_append, List.mem_append]
      constructor
      · intro h
        rcases h with hl | hr
        · rw [List.map_map] at hl
          obtain ⟨q, hq, hqk⟩ := List.mem_map.mp hl
          refine ⟨0, inner, ?_, ?_⟩
          · rw [List.getD_cons_zero]
            have : k1 = k := hqk
            rw [this]
          · intro hcon
            rw [hcon] at hq
            exact List.not_mem_nil q hq
        · obtain ⟨i, inn2, hi, hne⟩ := (ih).mp hr
          exact ⟨i + 1, inn2, by rwa [List.getD_cons_succ], hne⟩
      · rintro ⟨i, inn2, hi, hne⟩
        cases i with
        | zero =>
          rw [List.getD_cons_zero] at hi
          obtain ⟨h1, h2⟩ := Prod.mk.injEq _ _ _ _ ▸ Option.some.injEq _ _ ▸ hi
          subst h1
          subst h2
          left
          rw [List.map_map]
          cases hE : inner.entries with
          | nil => exact absurd hE hne
          | cons q qs =>
            refine List.mem_map.mpr ⟨q, ?_, rfl⟩
            exact List.mem_cons_self _ _
        | succ n =>
          rw [List.getD_cons_succ] at hi
          exact Or.inr (ih.mpr ⟨n, inn2, hi, hne⟩)

/-! ## Counting stored keys -/

/-- The first keys of the occupied slots, in array order (the body of
`keys()` with no argument). -/
def storedList (a : List (Option (String × InnerT))) : List String :=
  a.foldr (fun slot acc => match slot with | none => acc | some (k, _) => k :: acc) []

theorem keysNone_eq_storedList (t : DKT) : t.keysNone = storedList t.array := rfl

theorem storedList_mem (a : List (Option (String × InnerT))) (k : String) :
    k ∈ storedList a ↔ ∃ i inner, a.getD i none = some (k, inner) :=
  keysNone_mem ⟨[], 0, 0, a, []⟩ k

theorem storedList_length (a : List (Option (String × InnerT))) :
    (storedList a).length = a.countP (fun s => s.isSome) := by
  induction a with
  | nil => rfl
  | cons s rest ih =>
    cases s with
    | none =>
      show (storedList rest).length = _
      rw [ih, List.countP_cons]
      simp
    | some p =>
      show (p.1 :: storedList rest).length = _
      rw [List.length_cons, ih, List.countP_cons]
      simp

theorem storedList_nodup :
    ∀ a : List (Option (String × InnerT)),
      (∀ i j k inni innj, a.getD i none = some (k, inni) →
        a.getD j none = some (k, innj) → i = j) →
      (storedList a).Nodup := by
  intro a
  induction a with
  | nil => intro _; exact List.nodup_nil
  | cons s rest ih =>
    intro h
    have hrest : (storedList rest).Nodup := by
      refine ih (fun i j k inni innj hi hj => ?_)
      have := h (i + 1) (j + 1) k inni innj
        (by rwa [List.getD_cons_succ]) (by rwa [List.getD_cons_succ])
      omega
    cases s with
    | none => exact hrest
    | some p =>
      obtain ⟨k, inner⟩ := p
      show (k :: storedList rest).Nodup
      refine List.nodup_cons.mpr ⟨?_, hrest⟩
      intro hmem
      obtain ⟨j, innj, hj⟩ := (storedList_mem rest k).mp hmem
      have := h 0 (j + 1) k inner innj (by rw [List.getD_cons_zero])
        (by rwa [List.getD_cons_succ])
      exact Nat.noConfusion this

theorem length_eq_of_nodup_mem_iff {l1 l2 : List String} (h1 : l1.Nodup) (h2 : l2.Nodup)
    (h : ∀ k, k ∈ l1 ↔ k ∈ l2) : l1.length = l2.length := by
  have e : l1.toFinset = l2.toFinset := by
    ext k
    simpa [List.mem_toFinset] using h k
  calc l1.length = l1.toFinset.card := (List.toFinset_card_of_nodup h1).symm
    _ = l2.toFinset.card := by rw [e]
    _ = l2.length := List.toFinset_card_of_nodup h2

theorem length_le_of_nodup_subset {l1 l2 : List String} (h1 : l1.Nodup) (h2 : l2.Nodup)
    (h : ∀ k, k ∈ l1 → k ∈ l2) : l1.length ≤ l2.length := by
  have hsub : l1.toFinset ⊆ l2.toFinset := by
    intro k hk
    rw [List.mem_toFinset] at hk ⊢
    exact h k hk
  calc l1.length = l1.toFinset.card := (List.toFinset_card_of_nodup h1).symm
    _ ≤ l2.toFinset.card := Finset.card_le_card hsub
    _ = l2.length := List.toFinset_card_of_nodup h2

/-- In a probe-well-formed table, the occupancy equals the number of
stored first keys, and the stored first keys are duplicate-free. -/
theorem WFouter_storedList_nodup {t : DKT} (h : t.WFouter) :
    (storedList t.array).Nodup :=
  storedList_nodup t.array
    (fun i j k inni innj hi hj => WFouter_unique h hi hj)

/-! ## Support lemmas for the reinsert invariant -/

theorem setI_ok_not_full {s : InnerT} {k : String} {v : Nat} {s1 : InnerT}
    (hlk : assocLookup k s.entries = none) (h : s.setI k v = .ok s1) :
    s.isFullI = false := by
  unfold InnerT.setI at h
  rw [hlk] at h
  simp only [Option.isSome_none, Bool.false_eq_true, if_false] at h
  by_cases hf : s.isFullI = true
  · rw [if_pos hf] at h; exact Except.noConfusion h
  · exact Bool.not_eq_true _ ▸ hf

theorem hash1_set (s : DKT) (i : Nat) (x : Option (String × InnerT)) (k : String) :
    DKT.hash1 { s with array := s.array.set i x } k = s.hash1 k := by
  unfold DKT.hash1 DKT.tableSize
  rw [List.length_set]

theorem hash1_count_set (s : DKT) (i : Nat) (c : Nat) (x : Option (String × InnerT))
    (k : String) :
    DKT.hash1 { s with count := c, array := s.array.set i x } k = s.hash1 k := by
  unfold DKT.hash1 DKT.tableSize
  rw [List.length_set]

/-- Overwriting the inner table of an occupied slot (same first key)
preserves probe well-formedness. -/
theorem WF_overwrite {s : DKT} (h : s.WFouter) {i : Nat} {k1 : String}
    {inner inner1 : InnerT} (hslot : s.array.getD i none = some (k1, inner)) :
    DKT.WFouter { s with array := s.array.set i (some (k1, inner1)) } := by
  obtain ⟨hc, hn, hf⟩ := h
  have hmask : ∀ j, ((s.array.set i (some (k1, inner1))).getD j none).map Prod.fst =
      (s.array.getD j none).map Prod.fst := by
    intro j
    by_cases hij : i = j
    · subst hij
      have hilt : i < s.array.length :=
        getD_lt_of_isSome (by rw [hslot]; exact fun hcon => Option.noConfusion hcon)
      rw [getD_set_self _ _ _ _ hilt, hslot]
      simp
    · rw [getD_set_ne _ _ _ hij]
  refine ⟨?_, ?_, ?_⟩
  · show s.count = _
    unfold DKT.occupancy
    rw [countP_set_some_of_some _ _ _ _ hslot]
    exact hc
  · show 0 < (s.array.set i _).length
    rw [List.length_set]; exact hn
  · intro j hj
    rw [List.length_set] at hj
    unfold slotFoundB
    have hscaneq : ∀ k fuel idx,
        scanA (s.array.set i (some (k1, inner1))) k fuel idx = scanA s.array k fuel idx :=
      fun k fuel idx =>
        scanA_congr (List.length_set _ _ _) hmask k fuel idx
    by_cases hij : i = j
    · subst hij
      have hilt : i < s.array.length :=
        getD_lt_of_isSome (by rw [hslot]; exact fun hcon => Option.noConfusion hcon)
      rw [getD_set_self _ _ _ _ hilt]
      show (scanA _ k1 _ _ == _) = true
      rw [List.length_set, hash1_set, hscaneq]
      have hfound := WFouter_found ⟨hc, hn, hf⟩ hslot
      rw [hfound]
      simp
    · rw [getD_set_ne _ _ _ hij]
      cases hsj : s.array.getD j none with
      | none => rfl
      | some q =>
        show (scanA _ q.1 _ _ == _) = true
        rw [List.length_set, hash1_set, hscaneq]
        rw [WFouter_found ⟨hc, hn, hf⟩ (show s.array.getD j none = some (q.1, q.2) from hsj)]
        simp

/-- Creating a fresh slot at the first free position of a fresh first
key's probe path preserves probe well-formedness. -/
theorem WF_create {s : DKT} (h : s.WFouter) {i : Nat} {k1 : String} {inn : InnerT}
    (hscan : scanA s.array k1 s.array.length (s.hash1 k1) = some (i, false))
    (hfresh : ∀ j inner2, s.array.getD j none ≠ some (k1, inner2)) :
    DKT.WFouter { s with count := s.count + 1,
                         array := s.array.set i (some (k1, inn)) } := by
  obtain ⟨hc, hn, hf⟩ := h
  have hhash : s.hash1 k1 < s.array.length := hash1_lt s k1 hn
  have hfree : s.array.getD i none = none := (scanA_free hhash hscan).1
  have hilt : i < s.array.length := (scanA_free hhash hscan).2
  refine ⟨?_, ?_, ?_⟩
  · show s.count + 1 = DKT.occupancy _
    unfold DKT.occupancy
    rcases countP_set_some_of_none s.array i (k1, inn) hfree with hcp | hge
    · rw [hcp]; exact congrArg (· + 1) hc
    · omega
  · show 0 < (s.array.set i _).length
    rw [List.length_set]; exact hn
  · intro j hj
    rw [List.length_set] at hj
    unfold slotFoundB
    by_cases hij : i = j
    · subst hij
      rw [getD_set_self _ _ _ _ hilt]
      show (scanA _ k1 _ _ == some (i, true)) = true
      rw [List.length_set, hash1_count_set]
      rw [scanA_set_self hhash hscan]
      simp
    · rw [getD_set_ne _ _ _ hij]
      cases hsj : s.array.getD j none with
      | none => rfl
      | some q =>
        show (scanA _ q.1 _ _ == some (j, true)) = true
        rw [List.length_set, hash1_count_set]
        have hqne : q.1 ≠ k1 := by
          intro hcon
          refine hfresh j q.2 ?_
          rw [hsj, show q = (q.1, q.2) from rfl, hcon]
        have hfound := WFouter_found ⟨hc, hn, hf⟩
          (show s.array.getD j none = some (q.1, q.2) from hsj)
        rw [scanA_set_frame hqne hfree hfound]
        simp

theorem groupOf_keys_nodup {p : List (String × String × Nat)}
    (h : (p.map (fun tr => (tr.1, tr.2.1))).Nodup) (k1 : String) :
    ((groupOf p k1).map Prod.fst).Nodup := by
  unfold groupOf
  rw [List.map_map]
  have hsub : ((p.filter (fun tr => tr.1 == k1)).map (fun tr => (tr.1, tr.2.1))).Sublist
      (p.map (fun tr => (tr.1, tr.2.1))) := (List.filter_sublist p).map _
  have hnd2 := h.sublist hsub
  have heq : ((p.filter (fun tr => tr.1 == k1)).map
        (Prod.fst ∘ fun tr : String × String × Nat => (tr.2.1, tr.2.2))) =
      ((p.filter (fun tr => tr.1 == k1)).map (fun tr => (tr.1, tr.2.1))).map Prod.snd := by
    rw [List.map_map]
    rfl
  rw [heq]
  refine List.Nodup.map_on ?_ hnd2
  intro x hx y hy hxy
  obtain ⟨trx, htrx, hxe⟩ := List.mem_map.mp hx
  obtain ⟨trw, htrw, hye⟩ := List.mem_map.mp hy
  have hxk : x.1 = k1 := by
    rw [← hxe]
    exact eq_of_beq (List.mem_filter.mp htrx).2
  have hyk : y.1 = k1 := by
    rw [← hye]
    exact eq_of_beq (List.mem_filter.mp htrw).2
  exact Prod.ext_iff.mpr ⟨by rw [hxk, hyk], hxy⟩

theorem groupOf_mem_pairs {p : List (String × String × Nat)} {k1 k2 : String}
    (h : k2 ∈ (groupOf p k1).map Prod.fst) :
    (k1, k2) ∈ p.map (fun tr => (tr.1, tr.2.1)) := by
  unfold groupOf at h
  rw [List.map_map] at h
  obtain ⟨tr, htr, hte⟩ := List.mem_map.mp h
  have hmem := (List.mem_filter.mp htr).1
  have hk1 : tr.1 = k1 := eq_of_beq (List.mem_filter.mp htr).2
  refine List.mem_map.mpr ⟨tr, hmem, ?_⟩
  have hte2 : tr.2.1 = k2 := hte
  rw [hk1, hte2]

/-- A `set` step that finds its first key and inserts a fresh second key
without triggering a resize: pure slot overwrite. -/
theorem setItemF_found (fuel : Nat) (s : DKT) (k1 k2 : String) (v : Nat)
    {i : Nat} {inner inner1 : InnerT}
    (hscan : scanA s.array k1 s.array.length (s.hash1 k1) = some (i, true))
    (hslot : s.array.getD i none = some (k1, inner))
    (hlk : assocLookup k2 inner.entries = none)
    (hset : inner.setI k2 v = .ok inner1)
    (htrig : ¬2 * s.count > s.array.length) :
    DKT.setItemF fuel s k1 k2 v =
      (none, { s with array := s.array.set i (some (k1, inner1)) }) := by
  have hidx : assocIndex k2 inner.entries = none := by
    cases hai : assocIndex k2 inner.entries with
    | none => rfl
    | some j =>
      have hcontra : (assocLookup k2 inner.entries).isSome = true := by
        rw [← assocIndex_isSome_iff, hai]; rfl
      rw [hlk] at hcontra
      exact Bool.noConfusion hcontra
  have hnf := setI_ok_not_full hlk hset
  have hprb : inner.probe k2 true = .ok inner.entries.length := by
    unfold InnerT.probe
    rw [hidx, hnf]
    simp
  have hpl := scanA_found_probe s k1 k2 true hscan hslot
  rw [hprb] at hpl
  unfold DKT.setItemF DKT.setItemNoRe DKT.linearProbe
  rw [tableSize_eq, hpl]
  simp only [hslot, hset]
  have hdec : decide (2 * s.count > (s.array.set i (some (k1, inner1))).length) = false := by
    rw [decide_eq_false_iff_not, List.length_set]
    exact htrig
  simp only [DKT.tableSize, hdec, Bool.false_eq_true, if_false]

/-- A `set` step that creates a fresh slot for a new first key without
triggering a resize. -/
theorem setItemF_create (fuel : Nat) (s : DKT) (k1 k2 : String) (v : Nat) {i : Nat}
    (hscan : scanA s.array k1 s.array.length (s.hash1 k1) = some (i, false))
    (hcap : 0 < s.internalSizes.getD 0 0)
    (hn : 0 < s.array.length)
    (htrig : ¬2 * (s.count + 1) > s.array.length) :
    DKT.setItemF fuel s k1 k2 v =
      (none, { s with count := s.count + 1,
                      array := s.array.set i (some (k1,
                        InnerT.resizeCheck ⟨s.internalSizes, 0, [(k2, v)]⟩)) }) := by
  have hilt : i < s.array.length := (scanA_free (hash1_lt s k1 hn) hscan).2
  have hpl := scanA_free_probeInsert s k1 k2 (hash1_lt s k1 hn) hscan
  unfold DKT.setItemF DKT.setItemNoRe DKT.linearProbe
  rw [tableSize_eq, hpl]
  simp only [getD_set_self s.array i _ none hilt]
  rw [setI_mk0_ok s.internalSizes k2 v hcap]
  simp only [List.set_set]
  have hdec : decide (2 * (s.count + 1) >
      (s.array.set i (some (k1, InnerT.resizeCheck ⟨s.internalSizes, 0, [(k2, v)]⟩))).length)
      = false := by
    rw [decide_eq_false_iff_not, List.length_set]
    exact htrig
  simp only [DKT.tableSize, hdec, Bool.false_eq_true, if_false]

/-- The heart of the rehash proof: reinserting a duplicate-free triple
list into a table that already satisfies the rebuild invariant succeeds
and extends the invariant, provided the table stays below half of its
capacity (`B` is a duplicate-free bound list containing every first key;
`2 * |B| ≤ m` keeps the resize trigger off). -/
theorem reinsert_invariant (m : Nat) (isz : List Nat) (B : List String)
    (hcap : 0 < isz.getD 0 0) (hBnd : B.Nodup) (hBm : 2 * B.length ≤ m) (fuel : Nat) :
    ∀ (r p : List (String × String × Nat)) (s : DKT),
      s.array.length = m →
      s.internalSizes = isz →
      s.WFouter →
      (∀ k, (∃ i inner, s.array.getD i none = some (k, inner)) ↔
          k ∈ p.map (fun tr => tr.1)) →
      (∀ i k inner, s.array.getD i none = some (k, inner) →
          InnerT.buildList isz (groupOf p k) = .ok inner) →
      ((p ++ r).map (fun tr => (tr.1, tr.2.1))).Nodup →
      (∀ k ∈ (p ++ r).map (fun tr => tr.1), k ∈ B) →
      (∀ tr ∈ r, ∃ sOK, InnerT.buildList isz (groupOf (p ++ r) tr.1) = .ok sOK) →
      ∃ t1, DKT.reinsertF fuel s r = (none, t1) ∧
        t1.array.length = m ∧ t1.internalSizes = isz ∧ t1.WFouter ∧
        (∀ k, (∃ i inner, t1.array.getD i none = some (k, inner)) ↔
            k ∈ (p ++ r).map (fun tr => tr.1)) ∧
        (∀ i k inner, t1.array.getD i none = some (k, inner) →
            InnerT.buildList isz (groupOf (p ++ r) k) = .ok inner) := by
  intro r
  induction r with
  | nil =>
    intro p s hlen hisz hWF hmem hbuild hpairs hB hGok
    exact ⟨s, rfl, hlen, hisz, hWF, by simpa using hmem, by simpa using hbuild⟩
  | cons tr r2 ih =>
    intro p s hlen hisz hWF hmem hbuild hpairs hB hGok
    obtain ⟨k1, k2, v⟩ := tr
    -- count is bounded by the number of distinct first keys
    have hesub : ∀ k ∈ storedList s.array, k ∈ B := by
      intro k hk
      obtain ⟨i, inner, hslot⟩ := (storedList_mem _ k).mp hk
      have hkp : k ∈ p.map (fun tr => tr.1) := (hmem k).mp ⟨i, inner, hslot⟩
      refine hB k ?_
      rw [List.map_append]
      exact List.mem_append.mpr (Or.inl hkp)
    have hnodupS := WFouter_storedList_nodup hWF
    have hcnt : s.count ≤ B.length := by
      have h1 : (storedList s.array).length ≤ B.length :=
        length_le_of_nodup_subset hnodupS hBnd hesub
      have h2 : s.count = (storedList s.array).length := by
        rw [storedList_length]
        exact hWF.1
      omega
    have hk1B : k1 ∈ B := by
      refine hB k1 ?_
      rw [List.map_append]
      refine List.mem_append.mpr (Or.inr ?_)
      exact List.mem_map.mpr ⟨(k1, k2, v), List.mem_cons_self _ _, rfl⟩
    have hpairsP : (p.map (fun tr => (tr.1, tr.2.1))).Nodup := by
      rw [List.map_append] at hpairs
      exact hpairs.of_append_left
    by_cases hk1p : k1 ∈ p.map (fun tr => tr.1)
    · -- the first key already has a slot: overwrite its inner table
      obtain ⟨i, inner, hslot⟩ := (hmem k1).mpr hk1p
      have hscan := WFouter_found hWF hslot
      have hbi := hbuild i k1 inner hslot
      have hgrp : groupOf (p ++ (k1, k2, v) :: r2) k1 =
          (groupOf p k1 ++ [(k2, v)]) ++ groupOf r2 k1 := by
        rw [groupOf_append, groupOf_cons_self rfl, List.append_cons]
      obtain ⟨sOK, hok⟩ := hGok (k1, k2, v) (List.mem_cons_self _ _)
      rw [hgrp] at hok
      obtain ⟨s1, hs1⟩ := buildList_prefix_ok isz hok
      have hset : inner.setI k2 v = .ok s1 := by
        have happ := buildList_append_one isz (groupOf p k1) (k2, v)
        rw [hbi] at happ
        rw [happ] at hs1
        exact hs1
      have hglen : inner.entries = groupOf p k1 :=
        buildList_entries isz (groupOf_keys_nodup hpairsP k1) hbi
      have hlk : assocLookup k2 inner.entries = none := by
        refine assocLookup_eq_none_of_not_mem ?_
        rw [hglen]
        intro hk2mem
        have hpair := groupOf_mem_pairs hk2mem
        rw [List.map_append] at hpairs
        have hdis := (List.nodup_append.mp hpairs).2.2
        refine hdis hpair ?_
        exact List.mem_cons.mpr (Or.inl rfl)
      have htrig : ¬2 * s.count > s.array.length := by
        rw [hlen]; omega
      have hstep := setItemF_found fuel s k1 k2 v hscan hslot hlk hset htrig
      set t2 : DKT := { s with array := s.array.set i (some (k1, s1)) } with ht2
      have hilt : i < s.array.length :=
        getD_lt_of_isSome (by rw [hslot]; exact fun hcon => Option.noConfusion hcon)
      -- the new state satisfies the invariant with processed list p ++ [tr]
      have hmem2 : ∀ k, (∃ j inner2, t2.array.getD j none = some (k, inner2)) ↔
          k ∈ (p ++ [(k1, k2, v)]).map (fun tr => tr.1) := by
        intro k
        rw [List.map_append, List.mem_append]
        constructor
        · rintro ⟨j, inner2, hj⟩
          by_cases hij : i = j
          · subst hij
            rw [show t2.array = s.array.set i (some (k1, s1)) from rfl,
              getD_set_self _ _ _ _ hilt] at hj
            obtain ⟨h1, -⟩ := Prod.mk.injEq _ _ _ _ ▸ Option.some.injEq _ _ ▸ hj
            exact Or.inl (h1 ▸ hk1p)
          · rw [show t2.array = s.array.set i (some (k1, s1)) from rfl,
              getD_set_ne _ _ _ hij] at hj
            exact Or.inl ((hmem k).mp ⟨j, inner2, hj⟩)
        · intro hor
          have hkp : k ∈ p.map (fun tr => tr.1) := by
            rcases hor with h | h
            · exact h
            · simp only [List.map_cons, List.map_nil, List.mem_singleton] at h
              exact h ▸ hk1p
          obtain ⟨j, inner2, hj⟩ := (hmem k).mpr hkp
          by_cases hij : i = j
          · subst hij
            refine ⟨i, s1, ?_⟩
            rw [hslot] at hj
            obtain ⟨h1, -⟩ := Prod.mk.injEq _ _ _ _ ▸ Option.some.injEq _ _ ▸ hj
            rw [show t2.array = s.array.set i (some (k1, s1)) from rfl,
              getD_set_self _ _ _ _ hilt, h1]
          · refine ⟨j, inner2, ?_⟩
            rw [show t2.array = s.array.set i (some (k1, s1)) from rfl,
              getD_set_ne _ _ _ hij]
            exact hj
      have hbuild2 : ∀ j k inner2, t2.array.getD j none = some (k, inner2) →
          InnerT.buildList isz (groupOf (p ++ [(k1, k2, v)]) k) = .ok inner2 := by
        intro j k inner2 hj
        by_cases hij : i = j
        · subst hij
          rw [show t2.array = s.array.set i (some (k1, s1)) from rfl,
            getD_set_self _ _ _ _ hilt] at hj
          obtain ⟨h1, h2⟩ := Prod.mk.injEq _ _ _ _ ▸ Option.some.injEq _ _ ▸ hj
          rw [← h1, ← h2, groupOf_append, groupOf_cons_self rfl]
          show InnerT.buildList isz (groupOf p k1 ++ [(k2, v)]) = .ok s1
          exact hs1
        · rw [show t2.array = s.array.set i (some (k1, s1)) from rfl,
            getD_set_ne _ _ _ hij] at hj
          have hkne : k ≠ k1 := by
            intro hcon
            subst hcon
            exact hij (WFouter_unique hWF hj hslot).symm
          rw [groupOf_append, groupOf_cons_ne (by simpa using hkne.symm)]
          show InnerT.buildList isz (groupOf p k ++ groupOf [] k) = .ok inner2
          rw [show groupOf [] k = [] from rfl, List.append_nil]
          exact hbuild j k inner2 hj
      have hres := ih (p ++ [(k1, k2, v)]) t2
        (by rw [show t2.array = s.array.set i (some (k1, s1)) from rfl,
          List.length_set]; exact hlen)
        hisz
        (WF_overwrite hWF hslot)
        hmem2 hbuild2
        (by rw [← List.append_cons]; exact hpairs)
        (by rw [← List.append_cons]; exact hB)
        (by
          intro tr2 htr2
          rw [← List.append_cons]
          exact hGok tr2 (List.mem_cons.mpr (Or.inr htr2)))
      obtain ⟨t1, hrun, hc1, hc2, hc3, hc4, hc5⟩ := hres
      refine ⟨t1, ?_, hc1, hc2, hc3, ?_, ?_⟩
      · show DKT.reinsertF fuel s ((k1, k2, v) :: r2) = (none, t1)
        unfold DKT.reinsertF
        rw [hstep]
        exact hrun
      · intro k
        rw [List.append_cons]
        exact hc4 k
      · intro j k inner2 hj
        rw [List.append_cons]
        exact hc5 j k inner2 hj
    · -- fresh first key: create a new slot at the first free position
      have hfresh : ∀ j inner2, s.array.getD j none ≠ some (k1, inner2) := by
        intro j inner2 hcon
        exact hk1p ((hmem k1).mp ⟨j, inner2, hcon⟩)
      have hn : 0 < s.array.length := hWF.2.1
      have hm0 : 0 < m := hlen ▸ hn
      cases hscanall : scanA s.array k1 s.array.length (s.hash1 k1) with
      | none =>
        exfalso
        have hall := full_of_scanA_none (hash1_lt s k1 hn) hscanall
        have hfull : s.array.countP (fun s => s.isSome) = s.array.length :=
          countP_eq_length_of_all_isSome _ hall
        have hcfull : s.count = m := by
          have := hWF.1
          unfold DKT.countInv DKT.occupancy at this
          rw [this, hfull, hlen]
        omega
      | some pr =>
        obtain ⟨i, b⟩ := pr
        cases b with
        | true =>
          exfalso
          obtain ⟨inn, hinn⟩ := scanA_found hscanall
          exact hfresh i inn hinn
        | false =>
          have hfree := (scanA_free (hash1_lt s k1 hn) hscanall).1
          have hilt := (scanA_free (hash1_lt s k1 hn) hscanall).2
          -- the new count stays within the bound
          have hcnt1 : s.count + 1 ≤ B.length := by
            have hknotin : k1 ∉ storedList s.array := by
              intro hk
              obtain ⟨j, innj, hj⟩ := (storedList_mem _ k1).mp hk
              exact hfresh j innj hj
            have hnd2 : (k1 :: storedList s.array).Nodup :=
              List.nodup_cons.mpr ⟨hknotin, hnodupS⟩
            have hsub2 : ∀ k ∈ k1 :: storedList s.array, k ∈ B := by
              intro k hk
              rcases List.mem_cons.mp hk with h | h
              · exact h ▸ hk1B
              · exact hesub k h
            have := length_le_of_nodup_subset hnd2 hBnd hsub2
            rw [List.length_cons] at this
            have h2 : s.count = (storedList s.array).length := by
              rw [storedList_length]; exact hWF.1
            omega
          have htrig : ¬2 * (s.count + 1) > s.array.length := by
            rw [hlen]; omega
          have hstep := setItemF_create fuel s k1 k2 v hscanall
            (by rw [hisz]; exact hcap) hn htrig
          set inn1 : InnerT := InnerT.resizeCheck ⟨s.internalSizes, 0, [(k2, v)]⟩ with hinn1
          set t2 : DKT := { s with count := s.count + 1,
                                   array := s.array.set i (some (k1, inn1)) } with ht2
          have hbnew : InnerT.buildList isz [(k2, v)] = .ok inn1 := by
            have h0 : InnerT.buildList isz [(k2, v)] = (InnerT.mk0 isz).setI k2 v := rfl
            rw [h0, setI_mk0_ok isz k2 v hcap, hinn1, hisz]
          have hmem2 : ∀ k, (∃ j inner2, t2.array.getD j none = some (k, inner2)) ↔
              k ∈ (p ++ [(k1, k2, v)]).map (fun tr => tr.1) := by
            intro k
            rw [List.map_append, List.mem_append]
            constructor
            · rintro ⟨j, inner2, hj⟩
              by_cases hij : i = j
              · subst hij
                rw [show t2.array = s.array.set i (some (k1, inn1)) from rfl,
                  getD_set_self _ _ _ _ hilt] at hj
                obtain ⟨h1, -⟩ := Prod.mk.injEq _ _ _ _ ▸ Option.some.injEq _ _ ▸ hj
                refine Or.inr ?_
                simp only [List.map_cons, List.map_nil, List.mem_singleton]
                exact h1.symm
              · rw [show t2.array = s.array.set i (some (k1, inn1)) from rfl,
                  getD_set_ne _ _ _ hij] at hj
                exact Or.inl ((hmem k).mp ⟨j, inner2, hj⟩)
            · intro hor
              rcases hor with h | h
              · obtain ⟨j, inner2, hj⟩ := (hmem k).mpr h
                have hij : i ≠ j := by
                  intro hcon
                  rw [← hcon, hfree] at hj
                  exact Option.noConfusion hj
                refine ⟨j, inner2, ?_⟩
                rw [show t2.array = s.array.set i (some (k1, inn1)) from rfl,
                  getD_set_ne _ _ _ hij]
                exact hj
              · simp only [List.map_cons, List.map_nil, List.mem_singleton] at h
                refine ⟨i, inn1, ?_⟩
                rw [show t2.array = s.array.set i (some (k1, inn1)) from rfl,
                  getD_set_self _ _ _ _ hilt, h]
          have hbuild2 : ∀ j k inner2, t2.array.getD j none = some (k, inner2) →
              InnerT.buildList isz (groupOf (p ++ [(k1, k2, v)]) k) = .ok inner2 := by
            intro j k inner2 hj
            by_cases hij : i = j
            · subst hij
              rw [show t2.array = s.array.set i (some (k1, inn1)) from rfl,
                getD_set_self _ _ _ _ hilt] at hj
              obtain ⟨h1, h2⟩ := Prod.mk.injEq _ _ _ _ ▸ Option.some.injEq _ _ ▸ hj
              rw [← h1, ← h2, groupOf_append, groupOf_cons_self rfl]
              have hgp : groupOf p k1 = [] := by
                refine groupOf_nil_of_not_mem (fun tr2 htr2 hcon => ?_)
                exact hk1p (List.mem_map.mpr ⟨tr2, htr2, hcon⟩)
              rw [hgp]
              show InnerT.buildList isz ([(k2, v)] ++ groupOf [] k1) = .ok inn1
              rw [show groupOf ([] : List (String × String × Nat)) k1 = [] from rfl,
                List.append_nil]
              exact hbnew
            · rw [show t2.array = s.array.set i (some (k1, inn1)) from rfl,
                getD_set_ne _ _ _ hij] at hj
              have hkne : k ≠ k1 := by
                intro hcon
                exact hfresh j inner2 (hcon ▸ hj)
              rw [groupOf_append, groupOf_cons_ne (by simpa using hkne.symm)]
              show InnerT.buildList isz (groupOf p k ++ groupOf [] k) = .ok inner2
              rw [show groupOf ([] : List (String × String × Nat)) k = [] from rfl,
                List.append_nil]
              exact hbuild j k inner2 hj
          have hres := ih (p ++ [(k1, k2, v)]) t2
            (by rw [show t2.array = s.array.set i (some (k1, inn1)) from rfl,
              List.length_set]; exact hlen)
            hisz
            (WF_create hWF hscanall hfresh)
            hmem2 hbuild2
            (by rw [← List.append_cons]; exact hpairs)
            (by rw [← List.append_cons]; exact hB)
            (by
              intro tr2 htr2
              rw [← List.append_cons]
              exact hGok tr2 (List.mem_cons.mpr (Or.inr htr2)))
          obtain ⟨t1, hrun, hc1, hc2, hc3, hc4, hc5⟩ := hres
          refine ⟨t1, ?_, hc1, hc2, hc3, ?_, ?_⟩
          · show DKT.reinsertF fuel s ((k1, k2, v) :: r2) = (none, t1)
            unfold DKT.reinsertF
            rw [hstep]
            exact hrun
          · intro k
            rw [List.append_cons]
            exact hc4 k
          · intro j k inner2 hj
            rw [List.append_cons]
            exact hc5 j k inner2 hj

/-! ## Assembling the rehash-preservation theorem -/

theorem replicate_getD {α : Type} (m j : Nat) :
    (List.replicate m (none : Option α)).getD j none = none := by
  rw [List.getD_eq_getElem?_getD, List.getElem?_replicate]
  by_cases h : j < m
  · rw [if_pos h]; rfl
  · rw [if_neg h]; rfl

def isOkE : Except DKErr InnerT → Bool
  | .ok _ => true
  | .error _ => false

theorem isOkE_exists {x : Except DKErr InnerT} (h : isOkE x = true) :
    ∃ s, x = .ok s := by
  cases x with
  | ok s => exact ⟨s, rfl⟩
  | error e => exact Bool.noConfusion h

/-- Boolean per-slot condition for the rehash theorem: a non-empty,
duplicate-free inner table whose contents can be rebuilt under the inner
ladder. -/
def innerSlotOKB (isz : List Nat) (slot : Option (String × InnerT)) : Bool :=
  match slot with
  | none => true
  | some p =>
    decide (p.2.entries ≠ []) && decide ((p.2.entries.map Prod.fst).Nodup) &&
      isOkE (InnerT.buildList isz p.2.entries)

theorem innerSlotOKB_unpack {isz : List Nat} {slot : Option (String × InnerT)}
    {k : String} {inner : InnerT} (h : innerSlotOKB isz slot = true)
    (hs : slot = some (k, inner)) :
    inner.entries ≠ [] ∧ (inner.entries.map Prod.fst).Nodup ∧
      ∃ s, InnerT.buildList isz inner.entries = .ok s := by
  subst hs
  unfold innerSlotOKB at h
  simp only [Bool.and_eq_true, decide_eq_true_eq] at h
  exact ⟨h.1.1, h.1.2, isOkE_exists h.2⟩

/-- The (first key, second key) pairs of the stored triples are
duplicate-free when slots have distinct first keys and each inner table
has distinct second keys. -/
theorem triplesOf_pairs_nodup :
    ∀ a : List (Option (String × InnerT)),
      (∀ i j k inni innj, a.getD i none = some (k, inni) →
        a.getD j none = some (k, innj) → i = j) →
      (∀ i k inner, a.getD i none = some (k, inner) →
        (inner.entries.map Prod.fst).Nodup) →
      ((triplesOf a).map (fun tr => (tr.1, tr.2.1))).Nodup := by
  intro a
  induction a with
  | nil => intro _ _; exact List.nodup_nil
  | cons s rest ih =>
    intro huniq hinner
    have hrest : ((triplesOf rest).map (fun tr => (tr.1, tr.2.1))).Nodup := by
      refine ih (fun i j k inni innj hi hj => ?_) (fun i k inner hi => ?_)
      · have := huniq (i + 1) (j + 1) k inni innj
          (by rwa [List.getD_cons_succ]) (by rwa [List.getD_cons_succ])
        omega
      · exact hinner (i + 1) k inner (by rwa [List.getD_cons_succ])
    cases s with
    | none => exact hrest
    | some p =>
      obtain ⟨k, inner⟩ := p
      show ((inner.entries.map (fun q => (k, q.1, q.2)) ++ triplesOf rest).map
        (fun tr => (tr.1, tr.2.1))).Nodup
      rw [List.map_append]
      refine List.nodup_append.mpr ⟨?_, hrest, ?_⟩
      · -- head block: (k, second keys), Nodup from inner key Nodup
        have hkeys := hinner 0 k inner (by rw [List.getD_cons_zero])
        rw [List.map_map]
        have heq : ((fun tr : String × String × Nat => (tr.1, tr.2.1)) ∘
            fun q : String × Nat => (k, q.1, q.2)) = fun q => (k, q.1) := rfl
        rw [heq]
        have heq2 : inner.entries.map (fun q => (k, q.1)) =
            (inner.entries.map Prod.fst).map (fun x => (k, x)) := by
          rw [List.map_map]
          rfl
        rw [heq2]
        refine List.Nodup.map ?_ hkeys
        intro x y hxy
        exact (Prod.mk.injEq _ _ _ _ ▸ hxy).2
      · -- disjointness: the head's first key is not stored in the rest
        intro x hx hx2
        rw [List.map_map] at hx
        obtain ⟨q, hq, hqe⟩ := List.mem_map.mp hx
        obtain ⟨tr2, htr2, htre⟩ := List.mem_map.mp hx2
        have hx1 : x.1 = k := by rw [← hqe]; rfl
        have hx1b : x.1 = tr2.1 := by rw [← htre]
        have htr2mem : tr2.1 ∈ (triplesOf rest).map (fun tr => tr.1) :=
          List.mem_map.mpr ⟨tr2, htr2, rfl⟩
        obtain ⟨j, innj, hj, -⟩ := (triplesOf_firsts_mem tr2.1 rest).mp htr2mem
        rw [← hx1b, hx1] at hj
        have := huniq 0 (j + 1) k inner innj (by rw [List.getD_cons_zero])
          (by rwa [List.getD_cons_succ])
        exact Nat.noConfusion this

/-- Claim C8: outer resize preserves contents.  On a probe-well-formed
table (no deletion holes) whose inner tables are non-empty,
duplicate-free, and rebuildable under the inner ladder, and whose next
ladder entry (when one exists) is positive and at least twice the current
count: `_rehash` completes without error, every previously retrievable
composite key is still retrievable with its original value, `length()` is
unchanged, and when the ladder is exhausted the resize aborts silently,
leaving capacity, contents, and counts unchanged (only `size_index` is
advanced, which has no observable effect). -/
theorem c8_rehash_preserves (t : DKT)
    (hWF : t.WFouter)
    (hcap : 0 < t.internalSizes.getD 0 0)
    (hinner : ∀ i < t.array.length,
        innerSlotOKB t.internalSizes (t.array.getD i none) = true)
    (hnext : t.sizeIndex + 1 < t.sizes.length →
        2 * t.count ≤ t.sizes.getD (t.sizeIndex + 1) 0 ∧
          0 < t.sizes.getD (t.sizeIndex + 1) 0) :
    (t.rehash).1 = none ∧
    (∀ k1 k2 v, (t.getItem k1 k2).1 = .ok v →
        ((t.rehash).2.getItem k1 k2).1 = .ok v) ∧
    (t.rehash).2.lenDKT = t.lenDKT ∧
    (t.sizes.length ≤ t.sizeIndex + 1 →
        (t.rehash).2 = { t with sizeIndex := t.sizeIndex + 1 }) := by
  have hre : t.rehash = DKT.rehashF (t.sizes.length + 1) t := rfl
  by_cases hex : t.sizeIndex + 1 ≥ t.sizes.length
  · have habort : t.rehash = (none, { t with sizeIndex := t.sizeIndex + 1 }) := by
      rw [hre, rehashF_succ_eq, if_pos hex]
    refine ⟨by rw [habort], ?_, by rw [habort]; rfl, fun _ => by rw [habort]⟩
    intro k1 k2 v hv
    rw [habort]
    obtain ⟨i, inner, hslot, hlk⟩ := getItem_ok_stored t hv
    have hWF2 : DKT.WFouter { t with sizeIndex := t.sizeIndex + 1 } := hWF
    exact stored_getItem _ hWF2 hslot hlk
  · have hlt : t.sizeIndex + 1 < t.sizes.length := Nat.lt_of_not_le hex
    obtain ⟨hm, hm0⟩ := hnext hlt
    set m := t.sizes.getD (t.sizeIndex + 1) 0 with hmdef
    set t0 : DKT := { t with sizeIndex := t.sizeIndex + 1, count := 0,
                             array := List.replicate m none } with ht0
    have hrun : t.rehash = DKT.reinsertF t.sizes.length t0 t.toTriples := by
      rw [hre, rehashF_succ_eq, if_neg hex]
    set L := triplesOf t.array with hL
    have hLT : t.toTriples = L := rfl
    have huniq : ∀ i j k inni innj, t.array.getD i none = some (k, inni) →
        t.array.getD j none = some (k, innj) → i = j :=
      fun i j k inni innj hi hj => WFouter_unique hWF hi hj
    have hinners : ∀ i k inner, t.array.getD i none = some (k, inner) →
        inner.entries ≠ [] ∧ (inner.entries.map Prod.fst).Nodup ∧
          ∃ s, InnerT.buildList t.internalSizes inner.entries = .ok s := by
      intro i k inner hi
      have hilt : i < t.array.length :=
        getD_lt_of_isSome (by rw [hi]; exact fun hc => Option.noConfusion hc)
      exact innerSlotOKB_unpack (hinner i hilt) hi
    have hpairs : (L.map (fun tr => (tr.1, tr.2.1))).Nodup := by
      rw [hL]
      exact triplesOf_pairs_nodup t.array huniq
        (fun i k inner hi => (hinners i k inner hi).2.1)
    have hgroup : ∀ i k inner, t.array.getD i none = some (k, inner) →
        groupOf L k = inner.entries := by
      intro i k inner hi
      rw [hL, groupOf_triplesOf]
      exact keyEntries_eq_of_unique k t.array i inner hi
        (fun j innj hj => huniq j i k innj inner hj hi)
    have hmemL : ∀ k, k ∈ L.map (fun tr => tr.1) ↔
        ∃ i inner, t.array.getD i none = some (k, inner) := by
      intro k
      rw [hL, triplesOf_firsts_mem]
      constructor
      · rintro ⟨i, inner, hi, -⟩; exact ⟨i, inner, hi⟩
      · rintro ⟨i, inner, hi⟩; exact ⟨i, inner, hi, (hinners i k inner hi).1⟩
    have hBnd : (storedList t.array).Nodup := WFouter_storedList_nodup hWF
    have hBm : 2 * (storedList t.array).length ≤ m := by
      have h1 : (storedList t.array).length = t.count := by
        rw [storedList_length]
        exact hWF.1.symm
      omega
    have h0len : t0.array.length = m := by
      show (List.replicate m (none : Option (String × InnerT))).length = m
      exact List.length_replicate m none
    have h0WF : t0.WFouter := by
      refine ⟨?_, ?_, ?_⟩
      · show (0 : Nat) = _
        unfold DKT.occupancy
        show 0 = (List.replicate m (none : Option (String × InnerT))).countP _
        exact (countP_replicate_none m).symm
      · show 0 < t0.array.length
        rw [h0len]; exact hm0
      · intro i hi
        unfold slotFoundB
        show (match (List.replicate m (none : Option (String × InnerT))).getD i none
          with | none => true | some p => _) = true
        rw [replicate_getD]
    have h0mem : ∀ k, (∃ i inner, t0.array.getD i none = some (k, inner)) ↔
        k ∈ ([] : List (String × String × Nat)).map (fun tr => tr.1) := by
      intro k
      simp only [List.map_nil, List.not_mem_nil, iff_false]
      rintro ⟨i, inner, hi⟩
      rw [replicate_getD] at hi
      exact Option.noConfusion hi
    have h0build : ∀ i k inner, t0.array.getD i none = some (k, inner) →
        InnerT.buildList t.internalSizes
          (groupOf ([] : List (String × String × Nat)) k) = .ok inner := by
      intro i k inner hi
      rw [show t0.array = List.replicate m none from rfl, replicate_getD] at hi
      exact Option.noConfusion hi
    have hBsub : ∀ k ∈ (([] : List (String × String × Nat)) ++ L).map (fun tr => tr.1),
        k ∈ storedList t.array := by
      intro k hk
      rw [List.nil_append] at hk
      obtain ⟨i, inner, hi⟩ := (hmemL k).mp hk
      exact (storedList_mem _ k).mpr ⟨i, inner, hi⟩
    have hGok : ∀ tr ∈ L, ∃ sOK,
        InnerT.buildList t.internalSizes
          (groupOf (([] : List (String × String × Nat)) ++ L) tr.1) = .ok sOK := by
      intro tr htr
      rw [List.nil_append]
      have htr1 : tr.1 ∈ L.map (fun tr => tr.1) := List.mem_map.mpr ⟨tr, htr, rfl⟩
      obtain ⟨i, inner, hi⟩ := (hmemL tr.1).mp htr1
      rw [hgroup i tr.1 inner hi]
      exact (hinners i tr.1 inner hi).2.2
    obtain ⟨t1, hrun2, hc1, hc2, hc3, hc4, hc5⟩ :=
      reinsert_invariant m t.internalSizes (storedList t.array) hcap hBnd hBm t.sizes.length
        L [] t0 h0len rfl h0WF h0mem h0build
        (by rw [List.nil_append]; exact hpairs) hBsub hGok
    have hfinal : t.rehash = (none, t1) := by rw [hrun, hLT, hrun2]
    refine ⟨by rw [hfinal], ?_, ?_, ?_⟩
    · intro k1 k2 v hv
      rw [hfinal]
      obtain ⟨i, inner, hslot, hlk⟩ := getItem_ok_stored t hv
      have hk1L : k1 ∈ L.map (fun tr => tr.1) := (hmemL k1).mpr ⟨i, inner, hslot⟩
      obtain ⟨j, inner1, hj⟩ := (hc4 k1).mpr (by rw [List.nil_append]; exact hk1L)
      have hbuild1 := hc5 j k1 inner1 hj
      rw [List.nil_append] at hbuild1
      rw [hgroup i k1 inner hslot] at hbuild1
      have hent : inner1.entries = inner.entries :=
        buildList_entries t.internalSizes (hinners i k1 inner hslot).2.1 hbuild1
      refine stored_getItem t1 hc3 hj ?_
      rw [hent]
      exact hlk
    · rw [hfinal]
      show t1.count = t.count
      have ht1c : t1.count = (storedList t1.array).length := by
        rw [storedList_length]
        exact hc3.1
      have htc : t.count = (storedList t.array).length := by
        rw [storedList_length]
        exact hWF.1
      have hmemEq : ∀ k, k ∈ storedList t1.array ↔ k ∈ storedList t.array := by
        intro k
        rw [storedList_mem, storedList_mem]
        have h4 := hc4 k
        rw [List.nil_append] at h4
        rw [h4]
        exact hmemL k
      have hlens := length_eq_of_nodup_mem_iff (WFouter_storedList_nodup hc3) hBnd hmemEq
      omega
    · intro hcon
      exact absurd hcon (by omega)

/-- Witness for `c8_rehash_preserves` at the concrete table `tAB` (count
2, next ladder entry 13). -/
theorem c8_rehash_preserves_witness :
    (tAB.WFouter ∧ 0 < tAB.internalSizes.getD 0 0 ∧
      (tAB.sizeIndex + 1 < tAB.sizes.length →
        2 * tAB.count ≤ tAB.sizes.getD (tAB.sizeIndex + 1) 0 ∧
          0 < tAB.sizes.getD (tAB.sizeIndex + 1) 0)) ∧
    ((tAB.rehash).1 = none ∧ (tAB.rehash).2.lenDKT = tAB.lenDKT) :=
  have h := c8_rehash_preserves tAB (by decide) (by decide) (by decide) (by decide)
  ⟨⟨by decide, by decide, by decide⟩, h.1, h.2.2.1⟩
